import Mathlib

/-!
# awave.c : sample-buffer DSP primitives of Standing Wave 3

A shallow embedding of `src/alchemy/awave.c`.

Modelling conventions

* A `float *` is modelled by the memory it points to, `Nat → α`: index `i`
  is the float at `pointer + i`.  `*p = v` is `Function.update`.  Distinct
  pointer arguments are distinct (non overlapping) memories.
  The wavetable `sourceBuffer` is read at the signed offset `intPhase`; its
  memory is `Int → α`.
* Sample arithmetic is the arithmetic of the carrier `α`.  The loops are
  written over a carrier with bare `+`, `-`, `*` (an ordered field with floor
  for `wavetableIn`); statements that need no algebraic law are proved at that
  generality, the others over a ring or an ordered field (exact arithmetic, no
  rounding, no NaN).
* `int` arguments that count things (`frames`, `channels`, `length`,
  `tableSize`) are natural numbers; no claim concerns 32 bit overflow.
* A `while (count--)` loop is structural recursion on `count`.  The phase wrap
  of `wavetableIn`, a `while` loop without a structural bound, takes fuel and
  yields `none` when the fuel runs out.
* Where C leaves a call undefined in a way the function itself decides (the
  ring shift of `delay`), the result is `none`.
-/

namespace AWave

/-! ## Definitions -/

section Buffers

variable {α : Type}

/-- Sample `n - k` of the signal `sig`, where the two samples before the block
are `m1` (index -1) and `m2` (index -2).  Used to state the recurrence. -/
def delayed (sig : Nat → α) (m1 m2 : α) (n k : Nat) : α :=
  if k ≤ n then sig (n - k) else if n + 1 = k then m1 else m2

/-- The buffer whose first floats are the elements of `l`, `d` beyond them. -/
def ofList (l : List α) (d : α) : Nat → α := fun i => l.getD i d

end Buffers

section Biquad

variable {α : Type} [Add α] [Sub α] [Mul α]

/-- The coefficient object `{a0, a1, a2, b0, b1, b2}` read at awave.c:466-470. -/
structure Coeffs (α : Type) where
  a0 : α
  a1 : α
  a2 : α
  b0 : α
  b1 : α
  b2 : α

/-- The delay taps `lx1, lx2, ly1, ly2` of one channel (awave.c:456-457). -/
structure Taps (α : Type) where
  x1 : α
  x2 : α
  y1 : α
  y2 : α

/-- The mono sample loop, awave.c:483-491.  `count` is the loop counter,
`p` the offset `buffer` has been advanced to. -/
def biquadMonoLoop (c : Coeffs α) : Nat → Nat → (Nat → α) → Taps α → (Nat → α) × Taps α
  | 0, _, buffer, t => (buffer, t)
  | count + 1, p, buffer, t =>
    let lx := buffer p
    let ly := lx * c.b0 + t.x1 * c.b1 + t.x2 * c.b2 - t.y1 * c.a1 - t.y2 * c.a2
    biquadMonoLoop c count (p + 1) (Function.update buffer p ly) ⟨lx, t.x1, ly, t.y1⟩

/-- The stereo sample loop, awave.c:505-520: `l` are the left taps, `r` the
right ones; each pass reads and writes two consecutive floats. -/
def biquadStereoLoop (c : Coeffs α) :
    Nat → Nat → (Nat → α) → Taps α → Taps α → (Nat → α) × Taps α × Taps α
  | 0, _, buffer, l, r => (buffer, l, r)
  | count + 1, p, buffer, l, r =>
    let lx := buffer p
    let ly := lx * c.b0 + l.x1 * c.b1 + l.x2 * c.b2 - l.y1 * c.a1 - l.y2 * c.a2
    let buffer1 := Function.update buffer p ly
    let rx := buffer1 (p + 1)
    let ry := rx * c.b0 + r.x1 * c.b1 + r.x2 * c.b2 - r.y1 * c.a1 - r.y2 * c.a2
    biquadStereoLoop c count (p + 2) (Function.update buffer1 (p + 1) ry)
      ⟨lx, l.x1, ly, l.y1⟩ ⟨rx, r.x1, ry, r.y1⟩

/-- Store of the four mono taps, awave.c:492-495. -/
def storeMono (stateBuffer : Nat → α) (t : Taps α) : Nat → α :=
  Function.update (Function.update (Function.update (Function.update stateBuffer
    0 t.x1) 1 t.x2) 2 t.y1) 3 t.y2

/-- Store of the eight stereo taps, awave.c:521-528. -/
def storeStereo (stateBuffer : Nat → α) (l r : Taps α) : Nat → α :=
  Function.update (Function.update (Function.update (Function.update
    (Function.update (Function.update (Function.update (Function.update stateBuffer
    0 l.x1) 1 r.x1) 2 l.x2) 3 r.x2) 4 l.y1) 5 r.y1) 6 l.y2) 7 r.y2

/-- The function `biquad`, awave.c:476-531: the pair (buffer, stateBuffer) after the
call.  Any channel count other than 1 and 2 falls through both branches. -/
def biquad (buffer stateBuffer : Nat → α) (channels frames : Nat) (c : Coeffs α) :
    (Nat → α) × (Nat → α) :=
  if channels = 1 then
    let res := biquadMonoLoop c frames 0 buffer
      ⟨stateBuffer 0, stateBuffer 1, stateBuffer 2, stateBuffer 3⟩
    (res.1, storeMono stateBuffer res.2)
  else if channels = 2 then
    let res := biquadStereoLoop c frames 0 buffer
      ⟨stateBuffer 0, stateBuffer 2, stateBuffer 4, stateBuffer 6⟩
      ⟨stateBuffer 1, stateBuffer 3, stateBuffer 5, stateBuffer 7⟩
    (res.1, storeStereo stateBuffer res.2.1 res.2.2)
  else (buffer, stateBuffer)

/-- The coefficient set `a0=1, a1=0, a2=0, b0=1, b1=0, b2=0`. -/
def identityCoeffs [Zero α] [One α] : Coeffs α :=
  { a0 := 1, a1 := 0, a2 := 0, b0 := 1, b1 := 0, b2 := 0 }

end Biquad

section Delay

variable {α : Type} [Add α] [Mul α]

/-- The settings object `{length, dryMix, wetMix, feedback}` read at awave.c:384-391. -/
structure DelaySettings (α : Type) where
  length : Nat
  dryMix : α
  wetMix : α
  feedback : α

/-- The machine state after the sample loop of `delay`: the two memories, the
cursor `offset`, and (ghost) the ring positions the loop dereferenced, in order. -/
structure DelayRun (α : Type) where
  buffer : Nat → α
  ring : Nat → α
  offset : Nat
  visited : List Nat

/-- The sample loop of `delay`, awave.c:399-408; the stereo loop awave.c:411-420
has the same body and differs only in its trip count.  `p` is the offset
`buffer` has been advanced to. -/
def delayLoop (s : DelaySettings α) : Nat → Nat → Nat → (Nat → α) → (Nat → α) → DelayRun α
  | 0, _, offset, buffer, ring => ⟨buffer, ring, offset, []⟩
  | count + 1, p, offset, buffer, ring =>
    let offset1 := if offset > s.length then 0 else offset
    let echo := ring offset1
    let ring1 := Function.update ring offset1 (buffer p + echo * s.feedback)
    let buffer1 := Function.update buffer p (buffer p * s.dryMix + echo * s.wetMix)
    let rest := delayLoop s count (p + 1) (offset1 + 1) buffer1 ring1
    ⟨rest.buffer, rest.ring, rest.offset, offset1 :: rest.visited⟩

/-- Lines awave.c:397-421 of `delay`: `offset` starts at 0; mono runs the loop
`frames` times, stereo `frames*2` times, any other channel count not at all. -/
def delaySamples (buffer ring : Nat → α) (channels frames : Nat) (s : DelaySettings α) :
    DelayRun α :=
  if channels = 1 then delayLoop s frames 0 0 buffer ring
  else if channels = 2 then delayLoop s (frames * 2) 0 0 buffer ring
  else ⟨buffer, ring, 0, []⟩

/-- The call `memcpy(dest + dOff, src + sOff, n * sizeof(float))` on disjoint
memories: `n` floats are copied. -/
def memcpy (dest src : Nat → α) (dOff sOff n : Nat) : Nat → α :=
  fun j => if dOff ≤ j ∧ j < dOff + n then src (sOff + (j - dOff)) else dest j

/-- The size in bytes of a `float`. -/
def sizeofFloat : Nat := 4

/-- The ring shift, awave.c:425-438.  `temp0` is the indeterminate content of the
block `malloc(ringSize)` returns.  The result is `none` where C leaves the
behaviour undefined: `secondChunkSize` negative (it is passed as a `size_t`), or
the second `memcpy` writing past the end of `temp`. -/
def delayShift (temp0 ring : Nat → α) (length channels offset : Nat) : Option (Nat → α) :=
  let ringSize := length * channels * sizeofFloat
  let firstChunkSize := offset * channels * sizeofFloat
  if ringSize < firstChunkSize then none
  else
    let secondChunkSize := ringSize - firstChunkSize
    -- copy offset-end -> start of temp buffer
    let temp1 := memcpy temp0 ring 0 offset (secondChunkSize / sizeofFloat)
    if ringSize < offset * sizeofFloat + firstChunkSize then none
    else
      -- copy start-offset -> second half of temp buffer
      let temp2 := memcpy temp1 ring offset 0 (firstChunkSize / sizeofFloat)
      -- copy temp buffer back to ringbuffer
      some (memcpy ring temp2 0 0 (ringSize / sizeofFloat))

/-- The function `delay`, awave.c:397-440: the pair (buffer, ringBuffer) after the
call, `none` when the ring shift is undefined. -/
def delay (temp0 buffer ring : Nat → α) (channels frames : Nat) (s : DelaySettings α) :
    Option ((Nat → α) × (Nat → α)) :=
  let run := delaySamples buffer ring channels frames s
  (delayShift temp0 run.ring s.length channels run.offset).map fun ring1 => (run.buffer, ring1)

end Delay

section Wavetable

variable {α : Type} [LinearOrderedField α] [FloorRing α]

/-- The function `interpolate`, awave.c:27-30. -/
def interpolate (sample1 sample2 fraction : α) : α :=
  sample1 + fraction * (sample2 - sample1)

/-- The settings object `{tableSize, phase, phaseAdd, phaseReset, pitchTable}` read
at awave.c:318-319; `pitchTable` is read and never used, and is left out. -/
structure WavetableSettings (α : Type) where
  tableSize : Nat
  phase : α
  phaseAdd : α
  phaseReset : α

/-- What a run of `wavetableIn` leaves: the output buffer and (ghost), in order,
the wrapped phase of every output frame, the offsets into `sourceBuffer` it
dereferenced, and the fraction `phase - intPhase` every frame passed to
`interpolate`. -/
structure WavetableRun (α : Type) where
  buffer : Nat → α
  phases : List α
  reads : List Int
  weights : List α

/-- The phase wrap `while (phase >= tableSize) { phase -= tableSize; phase +=
phaseReset; }`, awave.c:338-341 and 351-354.  `fuel` bounds the number of times
the loop condition is evaluated; `none` when it is exhausted. -/
def wrapPhase (tableSize : Nat) (phaseReset : α) : Nat → α → Option α
  | 0, _ => none
  | fuel + 1, phase =>
    if phase ≥ (tableSize : α) then
      wrapPhase tableSize phaseReset fuel (phase - (tableSize : α) + phaseReset)
    else some phase

/-- The mono frame loop, awave.c:337-348.  `sourceBuffer` is indexed by the signed
`intPhase`, so its memory is a function of `Int`.  Every frame gets `fuel` for
its wrap loop. -/
def wavetableMonoLoop (fuel tableSize : Nat) (phaseAdd phaseReset : α) (source : Int → α) :
    Nat → Nat → (Nat → α) → α → Option (WavetableRun α)
  | 0, _, buffer, _ => some ⟨buffer, [], [], []⟩
  | count + 1, p, buffer, phase =>
    match wrapPhase tableSize phaseReset fuel phase with
    | none => none
    | some phase1 =>
      let intPhase : Int := Int.floor phase1
      let out := interpolate (source intPhase) (source (intPhase + 1)) (phase1 - (intPhase : α))
      match wavetableMonoLoop fuel tableSize phaseAdd phaseReset source count (p + 1)
          (Function.update buffer p out) (phase1 + phaseAdd) with
      | none => none
      | some rest =>
        some ⟨rest.buffer, phase1 :: rest.phases, intPhase :: (intPhase + 1) :: rest.reads,
          (phase1 - (intPhase : α)) :: rest.weights⟩

/-- The stereo frame loop, awave.c:350-360. -/
def wavetableStereoLoop (fuel tableSize : Nat) (phaseAdd phaseReset : α) (source : Int → α) :
    Nat → Nat → (Nat → α) → α → Option (WavetableRun α)
  | 0, _, buffer, _ => some ⟨buffer, [], [], []⟩
  | count + 1, p, buffer, phase =>
    match wrapPhase tableSize phaseReset fuel phase with
    | none => none
    | some phase1 =>
      let intPhase : Int := Int.floor (phase1 * 0.5) * 2
      let outL := interpolate (source intPhase) (source (intPhase + 2)) (phase1 - (intPhase : α))
      let outR := interpolate (source (intPhase + 1)) (source (intPhase + 3))
        (phase1 - (intPhase : α))
      match wavetableStereoLoop fuel tableSize phaseAdd phaseReset source count (p + 2)
          (Function.update (Function.update buffer p outL) (p + 1) outR)
          (phase1 + phaseAdd) with
      | none => none
      | some rest =>
        some ⟨rest.buffer, phase1 :: rest.phases,
          intPhase :: (intPhase + 2) :: (intPhase + 1) :: (intPhase + 3) :: rest.reads,
          (phase1 - (intPhase : α)) :: rest.weights⟩

/-- The function `wavetableIn`, awave.c:324-363: the three settings are scaled by
`tableSize`, then the loop of the channel count runs `frames` times. -/
def wavetableIn (fuel : Nat) (buffer : Nat → α) (source : Int → α) (channels frames : Nat)
    (s : WavetableSettings α) : Option (WavetableRun α) :=
  let phaseAdd := s.phaseAdd * (s.tableSize : α)
  let phase := s.phase * (s.tableSize : α)
  let phaseReset := s.phaseReset * (s.tableSize : α)
  if channels = 1 then
    wavetableMonoLoop fuel s.tableSize phaseAdd phaseReset source frames 0 buffer phase
  else if channels = 2 then
    wavetableStereoLoop fuel s.tableSize phaseAdd phaseReset source frames 0 buffer phase
  else some ⟨buffer, [], [], []⟩

end Wavetable

section Levels

variable {α : Type} [Add α] [Mul α]

/-- What `copy` and `standardize` leave: the destination `buffer`, the
`sourceBuffer` (only ever read), and (ghost) the offsets of `buffer` that were
written, in order. -/
structure CopyRun (α : Type) where
  buffer : Nat → α
  sourceBuffer : Nat → α
  written : List Nat

/-- The function `copy`, awave.c:77-90: one `memcpy` of
`frames * channels * sizeof(float)` bytes. -/
def copy (buffer sourceBuffer : Nat → α) (channels frames : Nat) : CopyRun α :=
  ⟨memcpy buffer sourceBuffer 0 0 (frames * channels * sizeofFloat / sizeofFloat),
    sourceBuffer, List.range (frames * channels * sizeofFloat / sizeofFloat)⟩

/-- The loop of the branch `rate == 22050 && channels == 1`, awave.c:117-122:
`p` and `q` are the offsets `buffer` and `sourceBuffer` have been advanced to. -/
def upsampleStereoizeLoop (sourceBuffer : Nat → α) :
    Nat → Nat → Nat → (Nat → α) → (Nat → α) × List Nat
  | 0, _, _, buffer => (buffer, [])
  | count + 1, p, q, buffer =>
    let b1 := Function.update buffer p (sourceBuffer q)
    let b2 := Function.update b1 (p + 1) (sourceBuffer q)
    let b3 := Function.update b2 (p + 2) (sourceBuffer q)
    let b4 := Function.update b3 (p + 3) (sourceBuffer q)
    let rest := upsampleStereoizeLoop sourceBuffer count (p + 4) (q + 1) b4
    (rest.1, p :: (p + 1) :: (p + 2) :: (p + 3) :: rest.2)

/-- The loop of the branch `rate == 22050 && channels == 2`, awave.c:126-132. -/
def upsampleLoop (sourceBuffer : Nat → α) :
    Nat → Nat → Nat → (Nat → α) → (Nat → α) × List Nat
  | 0, _, _, buffer => (buffer, [])
  | count + 1, p, q, buffer =>
    let b1 := Function.update buffer p (sourceBuffer q)
    let b2 := Function.update b1 (p + 1) (sourceBuffer (q + 1))
    let b3 := Function.update b2 (p + 2) (sourceBuffer q)
    let b4 := Function.update b3 (p + 3) (sourceBuffer (q + 1))
    let rest := upsampleLoop sourceBuffer count (p + 4) (q + 2) b4
    (rest.1, p :: (p + 1) :: (p + 2) :: (p + 3) :: rest.2)

/-- The loop of the branch `rate == 44100 && channels == 1`, awave.c:136-139. -/
def stereoizeLoop (sourceBuffer : Nat → α) :
    Nat → Nat → Nat → (Nat → α) → (Nat → α) × List Nat
  | 0, _, _, buffer => (buffer, [])
  | count + 1, p, q, buffer =>
    let b1 := Function.update buffer p (sourceBuffer q)
    let b2 := Function.update b1 (p + 1) (sourceBuffer q)
    let rest := stereoizeLoop sourceBuffer count (p + 2) (q + 1) b2
    (rest.1, p :: (p + 1) :: rest.2)

/-- The function `standardize`, awave.c:111-141.  `rate` is compared with two
constants only and is an integer. -/
def standardize (buffer sourceBuffer : Nat → α) (channels frames : Nat) (rate : Int) :
    CopyRun α :=
  if rate = 44100 ∧ channels = 2 then
    ⟨memcpy buffer sourceBuffer 0 0 (frames * channels * sizeofFloat / sizeofFloat),
      sourceBuffer, List.range (frames * channels * sizeofFloat / sizeofFloat)⟩
  else if rate = 22050 ∧ channels = 1 then
    let res := upsampleStereoizeLoop sourceBuffer (frames / 2) 0 0 buffer
    ⟨res.1, sourceBuffer, res.2⟩
  else if rate = 22050 ∧ channels = 2 then
    let res := upsampleLoop sourceBuffer (frames / 2) 0 0 buffer
    ⟨res.1, sourceBuffer, res.2⟩
  else if rate = 44100 ∧ channels = 1 then
    let res := stereoizeLoop sourceBuffer frames 0 0 buffer
    ⟨res.1, sourceBuffer, res.2⟩
  else ⟨buffer, sourceBuffer, []⟩

/-- The mono loop of `changeGain`, awave.c:182-184. -/
def changeGainMonoLoop (leftGain : α) : Nat → Nat → (Nat → α) → (Nat → α)
  | 0, _, buffer => buffer
  | count + 1, p, buffer =>
    changeGainMonoLoop leftGain count (p + 1) (Function.update buffer p (buffer p * leftGain))

/-- The stereo loop of `changeGain`, awave.c:186-189. -/
def changeGainStereoLoop (leftGain rightGain : α) : Nat → Nat → (Nat → α) → (Nat → α)
  | 0, _, buffer => buffer
  | count + 1, p, buffer =>
    let b1 := Function.update buffer p (buffer p * leftGain)
    let b2 := Function.update b1 (p + 1) (b1 (p + 1) * rightGain)
    changeGainStereoLoop leftGain rightGain count (p + 2) b2

/-- The function `changeGain`, awave.c:180-191. -/
def changeGain (buffer : Nat → α) (channels frames : Nat) (leftGain rightGain : α) : Nat → α :=
  if channels = 1 then changeGainMonoLoop leftGain frames 0 buffer
  else if channels = 2 then changeGainStereoLoop leftGain rightGain frames 0 buffer
  else buffer

/-- The mono loop of `mixIn`, awave.c:219-221; `buffer` and `sourceBuffer` advance
together, `p` is the offset of both. -/
def mixInMonoLoop (sourceBuffer : Nat → α) (leftGain : α) : Nat → Nat → (Nat → α) → (Nat → α)
  | 0, _, buffer => buffer
  | count + 1, p, buffer =>
    mixInMonoLoop sourceBuffer leftGain count (p + 1)
      (Function.update buffer p (buffer p + sourceBuffer p * leftGain))

/-- The stereo loop of `mixIn`, awave.c:223-226. -/
def mixInStereoLoop (sourceBuffer : Nat → α) (leftGain rightGain : α) :
    Nat → Nat → (Nat → α) → (Nat → α)
  | 0, _, buffer => buffer
  | count + 1, p, buffer =>
    let b1 := Function.update buffer p (buffer p + sourceBuffer p * leftGain)
    let b2 := Function.update b1 (p + 1) (b1 (p + 1) + sourceBuffer (p + 1) * rightGain)
    mixInStereoLoop sourceBuffer leftGain rightGain count (p + 2) b2

/-- The function `mixIn`, awave.c:217-229: the pair (buffer, sourceBuffer) after
the call; `sourceBuffer` is only ever read. -/
def mixIn (buffer sourceBuffer : Nat → α) (channels frames : Nat) (leftGain rightGain : α) :
    (Nat → α) × (Nat → α) :=
  if channels = 1 then (mixInMonoLoop sourceBuffer leftGain frames 0 buffer, sourceBuffer)
  else if channels = 2 then
    (mixInStereoLoop sourceBuffer leftGain rightGain frames 0 buffer, sourceBuffer)
  else (buffer, sourceBuffer)

end Levels

/-! ## Theorems -/

section BufferLemmas

variable {α : Type}

theorem storeMono_storeMono (s : Nat → α) (t u : Taps α) :
    storeMono (storeMono s t) u = storeMono s u := by
  funext j
  simp only [storeMono, Function.update_apply]
  split_ifs <;> rfl

theorem storeStereo_storeStereo (s : Nat → α) (l r l' r' : Taps α) :
    storeStereo (storeStereo s l r) l' r' = storeStereo s l' r' := by
  funext j
  simp only [storeStereo, Function.update_apply]
  split_ifs <;> rfl

theorem storeMono_taps (s : Nat → α) (t : Taps α) :
    (⟨storeMono s t 0, storeMono s t 1, storeMono s t 2, storeMono s t 3⟩ : Taps α) = t := by
  simp [storeMono, Function.update_apply]

theorem storeStereo_taps (s : Nat → α) (l r : Taps α) :
    (⟨storeStereo s l r 0, storeStereo s l r 2, storeStereo s l r 4, storeStereo s l r 6⟩ :
        Taps α) = l ∧
    (⟨storeStereo s l r 1, storeStereo s l r 3, storeStereo s l r 5, storeStereo s l r 7⟩ :
        Taps α) = r := by
  simp [storeStereo, Function.update_apply]

theorem storeStereo_even (s : Nat → α) (l r : Taps α) (i : Nat) :
    storeStereo s l r (2 * i) = storeMono (fun j => s (2 * j)) l i := by
  rcases i with _ | _ | _ | _ | i
  · simp [storeStereo, storeMono, Function.update_apply]
  · simp [storeStereo, storeMono, Function.update_apply]
  · simp [storeStereo, storeMono, Function.update_apply]
  · simp [storeStereo, storeMono, Function.update_apply]
  · simp only [storeStereo, storeMono]
    rw [Function.update_noteq (by omega), Function.update_noteq (by omega),
      Function.update_noteq (by omega), Function.update_noteq (by omega),
      Function.update_noteq (by omega), Function.update_noteq (by omega),
      Function.update_noteq (by omega), Function.update_noteq (by omega),
      Function.update_noteq (by omega), Function.update_noteq (by omega),
      Function.update_noteq (by omega), Function.update_noteq (by omega)]

theorem storeStereo_odd (s : Nat → α) (l r : Taps α) (i : Nat) :
    storeStereo s l r (2 * i + 1) = storeMono (fun j => s (2 * j + 1)) r i := by
  rcases i with _ | _ | _ | _ | i
  · simp [storeStereo, storeMono, Function.update_apply]
  · simp [storeStereo, storeMono, Function.update_apply]
  · simp [storeStereo, storeMono, Function.update_apply]
  · simp [storeStereo, storeMono, Function.update_apply]
  · simp only [storeStereo, storeMono]
    rw [Function.update_noteq (by omega), Function.update_noteq (by omega),
      Function.update_noteq (by omega), Function.update_noteq (by omega),
      Function.update_noteq (by omega), Function.update_noteq (by omega),
      Function.update_noteq (by omega), Function.update_noteq (by omega),
      Function.update_noteq (by omega), Function.update_noteq (by omega),
      Function.update_noteq (by omega), Function.update_noteq (by omega)]

theorem delayed_congr (f g : Nat → α) (m1 m2 : α) (n k : Nat) (hk : 1 ≤ k)
    (h : ∀ j, j < n → f j = g j) : delayed f m1 m2 n k = delayed g m1 m2 n k := by
  unfold delayed
  by_cases hkn : k ≤ n
  · rw [if_pos hkn, if_pos hkn]
    exact h _ (by omega)
  · rw [if_neg hkn, if_neg hkn]

end BufferLemmas

section BiquadLemmas

variable {α : Type} [Add α] [Sub α] [Mul α]

theorem biquadMonoLoop_frame (c : Coeffs α) (count : Nat) :
    ∀ (p : Nat) (buffer : Nat → α) (t : Taps α) (j : Nat), (j < p ∨ p + count ≤ j) →
      (biquadMonoLoop c count p buffer t).1 j = buffer j := by
  induction count with
  | zero => intro p buffer t j _; rfl
  | succ n ih =>
    intro p buffer t j hj
    rw [biquadMonoLoop, ih (p + 1) _ _ j (by omega)]
    exact Function.update_noteq (by omega) _ _

theorem biquadMonoLoop_split (c : Coeffs α) (m n : Nat) :
    ∀ (p : Nat) (buffer : Nat → α) (t : Taps α),
      biquadMonoLoop c (m + n) p buffer t =
        biquadMonoLoop c n (p + m) (biquadMonoLoop c m p buffer t).1
          (biquadMonoLoop c m p buffer t).2 := by
  induction m with
  | zero => intro p buffer t; simp [biquadMonoLoop]
  | succ k ih =>
    intro p buffer t
    rw [show k + 1 + n = (k + n) + 1 by omega, biquadMonoLoop, ih, biquadMonoLoop]
    rw [show p + 1 + k = p + (k + 1) by omega]

theorem biquadMonoLoop_congr (c : Coeffs α) (count : Nat) :
    ∀ (p q : Nat) (b b' : Nat → α) (t : Taps α), (∀ i, i < count → b (p + i) = b' (q + i)) →
      (∀ i, i < count →
        (biquadMonoLoop c count p b t).1 (p + i) = (biquadMonoLoop c count q b' t).1 (q + i)) ∧
      (biquadMonoLoop c count p b t).2 = (biquadMonoLoop c count q b' t).2 := by
  induction count with
  | zero => intro p q b b' t _; exact ⟨fun i hi => absurd hi (Nat.not_lt_zero i), rfl⟩
  | succ n ih =>
    intro p q b b' t h
    have h0 : b p = b' q := by simpa using h 0 (Nat.succ_pos n)
    simp only [biquadMonoLoop, h0]
    set ly := b' q * c.b0 + t.x1 * c.b1 + t.x2 * c.b2 - t.y1 * c.a1 - t.y2 * c.a2 with hly
    have hrec : ∀ i, i < n →
        Function.update b p ly (p + 1 + i) = Function.update b' q ly (q + 1 + i) := by
      intro i hi
      rw [Function.update_noteq (by omega), Function.update_noteq (by omega)]
      have := h (i + 1) (by omega)
      rwa [show p + (i + 1) = p + 1 + i by omega, show q + (i + 1) = q + 1 + i by omega] at this
    obtain ⟨ih1, ih2⟩ := ih (p + 1) (q + 1) _ _ ⟨b' q, t.x1, ly, t.y1⟩ hrec
    refine ⟨?_, ih2⟩
    intro i hi
    rcases Nat.eq_zero_or_pos i with rfl | hpos
    · rw [biquadMonoLoop_frame c n (p + 1) _ _ (p + 0) (by omega),
        biquadMonoLoop_frame c n (q + 1) _ _ (q + 0) (by omega)]
      simp
    · have := ih1 (i - 1) (by omega)
      rwa [show p + 1 + (i - 1) = p + i by omega, show q + 1 + (i - 1) = q + i by omega] at this

theorem biquadStereoLoop_frame (c : Coeffs α) (count : Nat) :
    ∀ (p : Nat) (buffer : Nat → α) (l r : Taps α) (j : Nat), (j < p ∨ p + 2 * count ≤ j) →
      (biquadStereoLoop c count p buffer l r).1 j = buffer j := by
  induction count with
  | zero => intro p buffer l r j _; rfl
  | succ n ih =>
    intro p buffer l r j hj
    rw [biquadStereoLoop, ih (p + 2) _ _ _ j (by omega)]
    rw [Function.update_noteq (by omega), Function.update_noteq (by omega)]

theorem biquadStereoLoop_split (c : Coeffs α) (m n : Nat) :
    ∀ (p : Nat) (buffer : Nat → α) (l r : Taps α),
      biquadStereoLoop c (m + n) p buffer l r =
        biquadStereoLoop c n (p + 2 * m) (biquadStereoLoop c m p buffer l r).1
          (biquadStereoLoop c m p buffer l r).2.1 (biquadStereoLoop c m p buffer l r).2.2 := by
  induction m with
  | zero => intro p buffer l r; simp [biquadStereoLoop]
  | succ k ih =>
    intro p buffer l r
    rw [show k + 1 + n = (k + n) + 1 by omega, biquadStereoLoop, ih, biquadStereoLoop]
    rw [show p + 2 + 2 * k = p + 2 * (k + 1) by omega]

theorem biquadStereoLoop_congr (c : Coeffs α) (count : Nat) :
    ∀ (p q : Nat) (b b' : Nat → α) (l r : Taps α),
      (∀ i, i < 2 * count → b (p + i) = b' (q + i)) →
      (∀ i, i < 2 * count →
        (biquadStereoLoop c count p b l r).1 (p + i) =
          (biquadStereoLoop c count q b' l r).1 (q + i)) ∧
      (biquadStereoLoop c count p b l r).2 = (biquadStereoLoop c count q b' l r).2 := by
  induction count with
  | zero => intro p q b b' l r _; exact ⟨fun i hi => absurd hi (Nat.not_lt_zero i), rfl⟩
  | succ n ih =>
    intro p q b b' l r h
    have h0 : b p = b' q := by simpa using h 0 (by omega)
    have h1 : b (p + 1) = b' (q + 1) := h 1 (by omega)
    have e1 : ∀ v : α, Function.update b p v (p + 1) = b' (q + 1) := by
      intro v; rw [Function.update_noteq (by omega)]; exact h1
    have e2 : ∀ v : α, Function.update b' q v (q + 1) = b' (q + 1) := by
      intro v; rw [Function.update_noteq (by omega)]
    simp only [biquadStereoLoop, h0, e1, e2]
    set ly := b' q * c.b0 + l.x1 * c.b1 + l.x2 * c.b2 - l.y1 * c.a1 - l.y2 * c.a2 with hly
    set ry := b' (q + 1) * c.b0 + r.x1 * c.b1 + r.x2 * c.b2 - r.y1 * c.a1 - r.y2 * c.a2
      with hry
    have hrec : ∀ i, i < 2 * n →
        Function.update (Function.update b p ly) (p + 1) ry (p + 2 + i) =
          Function.update (Function.update b' q ly) (q + 1) ry (q + 2 + i) := by
      intro i hi
      rw [Function.update_noteq (by omega), Function.update_noteq (by omega),
        Function.update_noteq (by omega), Function.update_noteq (by omega)]
      have := h (i + 2) (by omega)
      rwa [show p + (i + 2) = p + 2 + i by omega, show q + (i + 2) = q + 2 + i by omega] at this
    obtain ⟨ih1, ih2⟩ := ih (p + 2) (q + 2) _ _ ⟨b' q, l.x1, ly, l.y1⟩
      ⟨b' (q + 1), r.x1, ry, r.y1⟩ hrec
    refine ⟨?_, ih2⟩
    intro i hi
    by_cases hi2 : i < 2
    · rw [biquadStereoLoop_frame c n (p + 2) _ _ _ (p + i) (by omega),
        biquadStereoLoop_frame c n (q + 2) _ _ _ (q + i) (by omega)]
      rcases Nat.eq_zero_or_pos i with rfl | hpos
      · simp [Function.update_noteq]
      · obtain rfl : i = 1 := by omega
        simp
    · have := ih1 (i - 2) (by omega)
      rwa [show p + 2 + (i - 2) = p + i by omega, show q + 2 + (i - 2) = q + i by omega] at this

/-- C1 (biquad block splitting).  `bufAB` holds block A (`fa` frames) followed by
block B (`fb` frames).  Filtering A, then B with the state buffer the first call
left, gives the same output samples and the same final state buffer as filtering
the concatenation in one call.  It holds for every coefficient set, every state
buffer, every channel count, and for any sample arithmetic. -/
theorem biquad_block_split (c : Coeffs α) (channels fa fb : Nat)
    (state bufA bufB bufAB : Nat → α)
    (hA : ∀ i, i < channels * fa → bufAB i = bufA i)
    (hB : ∀ i, i < channels * fb → bufAB (channels * fa + i) = bufB i) :
    (∀ i, i < channels * fa →
      (biquad bufAB state channels (fa + fb) c).1 i = (biquad bufA state channels fa c).1 i) ∧
    (∀ i, i < channels * fb →
      (biquad bufAB state channels (fa + fb) c).1 (channels * fa + i) =
        (biquad bufB (biquad bufA state channels fa c).2 channels fb c).1 i) ∧
    (biquad bufAB state channels (fa + fb) c).2 =
      (biquad bufB (biquad bufA state channels fa c).2 channels fb c).2 := by
  by_cases h1 : channels = 1
  · subst h1
    simp only [one_mul] at hA hB
    simp only [biquad, if_true, storeMono_taps, storeMono_storeMono, one_mul]
    rw [biquadMonoLoop_split]
    set t0 : Taps α := ⟨state 0, state 1, state 2, state 3⟩
    obtain ⟨cA1, cA2⟩ := biquadMonoLoop_congr c fa 0 0 bufAB bufA t0
      (by intro i hi; simpa using hA i hi)
    have hB' : ∀ i, i < fb → (biquadMonoLoop c fa 0 bufAB t0).1 (0 + fa + i) = bufB (0 + i) := by
      intro i hi
      rw [biquadMonoLoop_frame c fa 0 _ _ _ (by omega)]
      simpa using hB i hi
    obtain ⟨cB1, cB2⟩ := biquadMonoLoop_congr c fb (0 + fa) 0 _ bufB
      (biquadMonoLoop c fa 0 bufAB t0).2 hB'
    rw [cA2] at cB1 cB2
    refine ⟨?_, ?_, ?_⟩
    · intro i hi
      rw [biquadMonoLoop_frame c fb (0 + fa) _ _ _ (by omega)]
      simpa using cA1 i hi
    · intro i hi
      rw [cA2]
      simpa using cB1 i hi
    · rw [cA2, cB2]
  · by_cases h2 : channels = 2
    · subst h2
      simp only [biquad, if_true, storeStereo_storeStereo, (storeStereo_taps _ _ _).1,
        (storeStereo_taps _ _ _).2, if_neg (show ¬ (2 = 1) by decide)]
      rw [biquadStereoLoop_split]
      set l0 : Taps α := ⟨state 0, state 2, state 4, state 6⟩
      set r0 : Taps α := ⟨state 1, state 3, state 5, state 7⟩
      obtain ⟨cA1, cA2⟩ := biquadStereoLoop_congr c fa 0 0 bufAB bufA l0 r0
        (by intro i hi; simpa using hA i hi)
      have hB' : ∀ i, i < 2 * fb →
          (biquadStereoLoop c fa 0 bufAB l0 r0).1 (0 + 2 * fa + i) = bufB (0 + i) := by
        intro i hi
        rw [biquadStereoLoop_frame c fa 0 _ _ _ _ (by omega)]
        simpa using hB i hi
      obtain ⟨cB1, cB2⟩ := biquadStereoLoop_congr c fb (0 + 2 * fa) 0 _ bufB
        (biquadStereoLoop c fa 0 bufAB l0 r0).2.1 (biquadStereoLoop c fa 0 bufAB l0 r0).2.2 hB'
      rw [cA2] at cB1 cB2
      refine ⟨?_, ?_, ?_⟩
      · intro i hi
        rw [biquadStereoLoop_frame c fb (0 + 2 * fa) _ _ _ _ (by omega)]
        simpa using cA1 i hi
      · intro i hi
        rw [cA2]
        simpa using cB1 i hi
      · rw [cA2, cB2]
    · simp only [biquad, if_neg h1, if_neg h2]
      exact ⟨hA, hB, trivial⟩

theorem biquadStereoLoop_left (c : Coeffs α) (count : Nat) :
    ∀ (q : Nat) (buffer : Nat → α) (l r : Taps α),
      (∀ k, (biquadStereoLoop c count (2 * q) buffer l r).1 (2 * k) =
        (biquadMonoLoop c count q (fun k => buffer (2 * k)) l).1 k) ∧
      (biquadStereoLoop c count (2 * q) buffer l r).2.1 =
        (biquadMonoLoop c count q (fun k => buffer (2 * k)) l).2 := by
  induction count with
  | zero => intro q buffer l r; exact ⟨fun k => rfl, rfl⟩
  | succ n ih =>
    intro q buffer l r
    simp only [biquadStereoLoop, biquadMonoLoop]
    rw [show 2 * q + 2 = 2 * (q + 1) by omega]
    have hfun : ∀ v w : α,
        (fun k => Function.update (Function.update buffer (2 * q) v) (2 * q + 1) w (2 * k)) =
          Function.update (fun k => buffer (2 * k)) q v := by
      intro v w
      funext k
      by_cases hk : k = q
      · subst hk
        rw [Function.update_noteq (by omega), Function.update_same, Function.update_same]
      · rw [Function.update_noteq (by omega), Function.update_noteq (by omega),
          Function.update_noteq hk]
    obtain ⟨ih1, ih2⟩ := ih (q + 1)
      (Function.update (Function.update buffer (2 * q)
        (buffer (2 * q) * c.b0 + l.x1 * c.b1 + l.x2 * c.b2 - l.y1 * c.a1 - l.y2 * c.a2))
        (2 * q + 1)
        (Function.update buffer (2 * q)
            (buffer (2 * q) * c.b0 + l.x1 * c.b1 + l.x2 * c.b2 - l.y1 * c.a1 - l.y2 * c.a2)
            (2 * q + 1) * c.b0 + r.x1 * c.b1 + r.x2 * c.b2 - r.y1 * c.a1 - r.y2 * c.a2))
      ⟨buffer (2 * q), l.x1,
        buffer (2 * q) * c.b0 + l.x1 * c.b1 + l.x2 * c.b2 - l.y1 * c.a1 - l.y2 * c.a2, l.y1⟩
      ⟨Function.update buffer (2 * q)
          (buffer (2 * q) * c.b0 + l.x1 * c.b1 + l.x2 * c.b2 - l.y1 * c.a1 - l.y2 * c.a2)
          (2 * q + 1), r.x1,
        Function.update buffer (2 * q)
            (buffer (2 * q) * c.b0 + l.x1 * c.b1 + l.x2 * c.b2 - l.y1 * c.a1 - l.y2 * c.a2)
            (2 * q + 1) * c.b0 + r.x1 * c.b1 + r.x2 * c.b2 - r.y1 * c.a1 - r.y2 * c.a2, r.y1⟩
    rw [hfun] at ih1 ih2
    exact ⟨ih1, ih2⟩

theorem biquadStereoLoop_right (c : Coeffs α) (count : Nat) :
    ∀ (q : Nat) (buffer : Nat → α) (l r : Taps α),
      (∀ k, (biquadStereoLoop c count (2 * q) buffer l r).1 (2 * k + 1) =
        (biquadMonoLoop c count q (fun k => buffer (2 * k + 1)) r).1 k) ∧
      (biquadStereoLoop c count (2 * q) buffer l r).2.2 =
        (biquadMonoLoop c count q (fun k => buffer (2 * k + 1)) r).2 := by
  induction count with
  | zero => intro q buffer l r; exact ⟨fun k => rfl, rfl⟩
  | succ n ih =>
    intro q buffer l r
    simp only [biquadStereoLoop, biquadMonoLoop]
    rw [show 2 * q + 2 = 2 * (q + 1) by omega]
    have hrx : ∀ v : α, Function.update buffer (2 * q) v (2 * q + 1) = buffer (2 * q + 1) :=
      fun v => Function.update_noteq (by omega) _ _
    have hfun : ∀ v w : α,
        (fun k => Function.update (Function.update buffer (2 * q) v) (2 * q + 1) w (2 * k + 1)) =
          Function.update (fun k => buffer (2 * k + 1)) q w := by
      intro v w
      funext k
      by_cases hk : k = q
      · subst hk
        rw [Function.update_same, Function.update_same]
      · rw [Function.update_noteq (by omega), Function.update_noteq (by omega),
          Function.update_noteq hk]
    simp only [hrx]
    obtain ⟨ih1, ih2⟩ := ih (q + 1)
      (Function.update (Function.update buffer (2 * q)
        (buffer (2 * q) * c.b0 + l.x1 * c.b1 + l.x2 * c.b2 - l.y1 * c.a1 - l.y2 * c.a2))
        (2 * q + 1)
        (buffer (2 * q + 1) * c.b0 + r.x1 * c.b1 + r.x2 * c.b2 - r.y1 * c.a1 - r.y2 * c.a2))
      ⟨buffer (2 * q), l.x1,
        buffer (2 * q) * c.b0 + l.x1 * c.b1 + l.x2 * c.b2 - l.y1 * c.a1 - l.y2 * c.a2, l.y1⟩
      ⟨buffer (2 * q + 1), r.x1,
        buffer (2 * q + 1) * c.b0 + r.x1 * c.b1 + r.x2 * c.b2 - r.y1 * c.a1 - r.y2 * c.a2, r.y1⟩
    rw [hfun] at ih1 ih2
    exact ⟨ih1, ih2⟩

/-- C3 (stereo biquad is two independent mono filters).  For every interleaved
stereo buffer and state buffer: the left outputs (even floats) and the state
slots 0,2,4,6 are those of mono `biquad` on the de-interleaved left channel with
state [s0,s2,s4,s6]; the right outputs (odd floats) and slots 1,3,5,7 are those of
mono `biquad` on the right channel with state [s1,s3,s5,s7]; hence another buffer
and state with the same left channel give the same left outputs. -/
theorem biquad_stereo_independent (c : Coeffs α) (buffer state : Nat → α) (frames : Nat) :
    (∀ k, (biquad buffer state 2 frames c).1 (2 * k) =
      (biquad (fun k => buffer (2 * k)) (fun i => state (2 * i)) 1 frames c).1 k) ∧
    (∀ i, (biquad buffer state 2 frames c).2 (2 * i) =
      (biquad (fun k => buffer (2 * k)) (fun i => state (2 * i)) 1 frames c).2 i) ∧
    (∀ k, (biquad buffer state 2 frames c).1 (2 * k + 1) =
      (biquad (fun k => buffer (2 * k + 1)) (fun i => state (2 * i + 1)) 1 frames c).1 k) ∧
    (∀ i, (biquad buffer state 2 frames c).2 (2 * i + 1) =
      (biquad (fun k => buffer (2 * k + 1)) (fun i => state (2 * i + 1)) 1 frames c).2 i) ∧
    (∀ buffer' state' : Nat → α, (∀ k, buffer' (2 * k) = buffer (2 * k)) →
      (∀ i, i < 4 → state' (2 * i) = state (2 * i)) →
      ∀ k, (biquad buffer' state' 2 frames c).1 (2 * k) =
        (biquad buffer state 2 frames c).1 (2 * k)) := by
  have hL := fun (b s : Nat → α) => biquadStereoLoop_left c frames 0 b
    ⟨s 0, s 2, s 4, s 6⟩ ⟨s 1, s 3, s 5, s 7⟩
  have hR := fun (b s : Nat → α) => biquadStereoLoop_right c frames 0 b
    ⟨s 0, s 2, s 4, s 6⟩ ⟨s 1, s 3, s 5, s 7⟩
  simp only [Nat.mul_zero] at hL hR
  simp only [biquad, if_true, if_neg (show ¬ (2 = 1) by decide), Nat.mul_zero, Nat.mul_one,
    Nat.zero_add]
  refine ⟨(hL buffer state).1, ?_, (hR buffer state).1, ?_, ?_⟩
  · intro i
    rw [storeStereo_even, (hL buffer state).2]
  · intro i
    rw [storeStereo_odd, (hR buffer state).2]
  · intro buffer' state' hb hs k
    rw [(hL buffer' state').1 k, (hL buffer state).1 k]
    have e : (fun k => buffer' (2 * k)) = fun k => buffer (2 * k) := funext hb
    have h0 := hs 0 (by omega)
    have h1 := hs 1 (by omega)
    have h2 := hs 2 (by omega)
    have h3 := hs 3 (by omega)
    simp only [Nat.mul_zero, Nat.mul_one] at h0 h1 h2 h3
    rw [e, h0, h1, show state' 4 = state 4 from h2, show state' 6 = state 6 from h3]

theorem biquadMonoLoop_succ_last (c : Coeffs α) (n p : Nat) (b : Nat → α) (t : Taps α) :
    biquadMonoLoop c (n + 1) p b t =
      (Function.update (biquadMonoLoop c n p b t).1 (p + n)
        ((biquadMonoLoop c n p b t).1 (p + n) * c.b0 + (biquadMonoLoop c n p b t).2.x1 * c.b1 +
          (biquadMonoLoop c n p b t).2.x2 * c.b2 - (biquadMonoLoop c n p b t).2.y1 * c.a1 -
          (biquadMonoLoop c n p b t).2.y2 * c.a2),
       ⟨(biquadMonoLoop c n p b t).1 (p + n), (biquadMonoLoop c n p b t).2.x1,
        (biquadMonoLoop c n p b t).1 (p + n) * c.b0 + (biquadMonoLoop c n p b t).2.x1 * c.b1 +
          (biquadMonoLoop c n p b t).2.x2 * c.b2 - (biquadMonoLoop c n p b t).2.y1 * c.a1 -
          (biquadMonoLoop c n p b t).2.y2 * c.a2,
        (biquadMonoLoop c n p b t).2.y1⟩) := by
  rw [biquadMonoLoop_split c n 1 p b t]
  rfl

theorem biquadMonoLoop_stable (c : Coeffs α) (x : Nat → α) (t : Taps α) (n m j : Nat)
    (hnm : n ≤ m) (hj : j < n) :
    (biquadMonoLoop c m 0 x t).1 j = (biquadMonoLoop c n 0 x t).1 j := by
  obtain ⟨d, rfl⟩ := Nat.exists_eq_add_of_le hnm
  rw [biquadMonoLoop_split c n d 0 x t]
  exact biquadMonoLoop_frame c d (0 + n) _ _ j (by omega)

theorem biquadMonoLoop_taps (c : Coeffs α) (x : Nat → α) (t : Taps α) (i : Nat) :
    (biquadMonoLoop c i 0 x t).2 =
      ⟨delayed x t.x1 t.x2 i 1, delayed x t.x1 t.x2 i 2,
       delayed (biquadMonoLoop c i 0 x t).1 t.y1 t.y2 i 1,
       delayed (biquadMonoLoop c i 0 x t).1 t.y1 t.y2 i 2⟩ := by
  induction i with
  | zero => simp [biquadMonoLoop, delayed]
  | succ n ih =>
    rw [biquadMonoLoop_succ_last]
    have hx : (biquadMonoLoop c n 0 x t).1 (0 + n) = x n := by
      rw [biquadMonoLoop_frame c n 0 x t (0 + n) (by omega)]; simp
    simp only [hx]
    rw [ih]
    simp only
    have e1 : delayed x t.x1 t.x2 (n + 1) 1 = x n := by simp [delayed]
    have e2 : delayed x t.x1 t.x2 (n + 1) 2 = delayed x t.x1 t.x2 n 1 := by
      unfold delayed
      by_cases h : 1 ≤ n
      · rw [if_pos (show 2 ≤ n + 1 by omega), if_pos h, show n + 1 - 2 = n - 1 by omega]
      · obtain rfl : n = 0 := by omega
        simp
    rw [e1, e2]
    congr 1
    · unfold delayed
      rw [if_pos (show 1 ≤ n + 1 by omega), show n + 1 - 1 = 0 + n by omega,
        Function.update_same]
    · unfold delayed
      by_cases h : 1 ≤ n
      · rw [if_pos (show 2 ≤ n + 1 by omega), if_pos h, show n + 1 - 2 = n - 1 by omega,
          Function.update_noteq (by omega)]
      · obtain rfl : n = 0 := by omega
        simp

theorem biquadMonoLoop_output (c : Coeffs α) (x : Nat → α) (t : Taps α) (frames n : Nat)
    (hn : n < frames) :
    (biquadMonoLoop c frames 0 x t).1 n =
      x n * c.b0 + delayed x t.x1 t.x2 n 1 * c.b1 + delayed x t.x1 t.x2 n 2 * c.b2 -
        delayed (biquadMonoLoop c frames 0 x t).1 t.y1 t.y2 n 1 * c.a1 -
        delayed (biquadMonoLoop c frames 0 x t).1 t.y1 t.y2 n 2 * c.a2 := by
  have hpre : ∀ j, j < n →
      (biquadMonoLoop c frames 0 x t).1 j = (biquadMonoLoop c n 0 x t).1 j :=
    fun j hj => biquadMonoLoop_stable c x t n frames j (by omega) hj
  rw [delayed_congr _ _ t.y1 t.y2 n 1 (by omega) hpre,
    delayed_congr _ _ t.y1 t.y2 n 2 (by omega) hpre]
  rw [biquadMonoLoop_stable c x t (n + 1) frames n (by omega) (by omega)]
  rw [biquadMonoLoop_succ_last]
  have hx : (biquadMonoLoop c n 0 x t).1 (0 + n) = x n := by
    rw [biquadMonoLoop_frame c n 0 x t (0 + n) (by omega)]; simp
  simp only [hx]
  rw [show (0 + n) = n by omega, Function.update_same]
  rw [biquadMonoLoop_taps c x t n]

end BiquadLemmas

section BiquadRing

variable {α : Type}

/-- C2 (mono biquad is the direct-form-I recurrence).  With x the buffer before the
call, y the buffer after it and the state buffer [x1, x2, y1, y2] before it, every
n < frames has y[n] = b0*x[n] + b1*x[n-1] + b2*x[n-2] - a1*y[n-1] - a2*y[n-2], where
x[-1] = x1, x[-2] = x2, y[-1] = y1, y[-2] = y2. -/
theorem biquad_mono_recurrence [CommRing α] (c : Coeffs α) (buffer state : Nat → α)
    (frames n : Nat) (hn : n < frames) :
    (biquad buffer state 1 frames c).1 n =
      c.b0 * buffer n + c.b1 * delayed buffer (state 0) (state 1) n 1 +
        c.b2 * delayed buffer (state 0) (state 1) n 2 -
        c.a1 * delayed (biquad buffer state 1 frames c).1 (state 2) (state 3) n 1 -
        c.a2 * delayed (biquad buffer state 1 frames c).1 (state 2) (state 3) n 2 := by
  have h := biquadMonoLoop_output c buffer ⟨state 0, state 1, state 2, state 3⟩ frames n hn
  simp only [biquad, if_true]
  rw [h]
  ring

theorem biquadMonoLoop_identity [Ring α] (count : Nat) :
    ∀ (p : Nat) (b : Nat → α) (t : Taps α),
      (biquadMonoLoop identityCoeffs count p b t).1 = b := by
  induction count with
  | zero => intro p b t; rfl
  | succ n ih =>
    intro p b t
    rw [biquadMonoLoop, ih]
    simp [identityCoeffs]

/-- C4 (biquad identity).  With the coefficients a0=1, a1=0, a2=0, b0=1, b1=0, b2=0
and frames >= 2, a mono call leaves the buffer unchanged and leaves the state
buffer equal to [x[frames-1], x[frames-2], y[frames-1], y[frames-2]] (its later
floats untouched), for every buffer and every initial state. -/
theorem biquad_identity [Ring α] (buffer state : Nat → α) (frames : Nat) (h : 2 ≤ frames) :
    (biquad buffer state 1 frames identityCoeffs).1 = buffer ∧
    (biquad buffer state 1 frames identityCoeffs).2 0 = buffer (frames - 1) ∧
    (biquad buffer state 1 frames identityCoeffs).2 1 = buffer (frames - 2) ∧
    (biquad buffer state 1 frames identityCoeffs).2 2 =
      (biquad buffer state 1 frames identityCoeffs).1 (frames - 1) ∧
    (biquad buffer state 1 frames identityCoeffs).2 3 =
      (biquad buffer state 1 frames identityCoeffs).1 (frames - 2) ∧
    (∀ j, 4 ≤ j → (biquad buffer state 1 frames identityCoeffs).2 j = state j) := by
  have ht := biquadMonoLoop_taps identityCoeffs buffer
    ⟨state 0, state 1, state 2, state 3⟩ frames
  have hb := biquadMonoLoop_identity frames 0 buffer ⟨state 0, state 1, state 2, state 3⟩
  simp only [biquad, if_true]
  rw [ht, hb]
  have d1 : ∀ m1 m2 : α, delayed buffer m1 m2 frames 1 = buffer (frames - 1) := by
    intro m1 m2; unfold delayed; rw [if_pos (by omega)]
  have d2 : ∀ m1 m2 : α, delayed buffer m1 m2 frames 2 = buffer (frames - 2) := by
    intro m1 m2; unfold delayed; rw [if_pos h]
  simp only [d1, d2, storeMono]
  refine ⟨trivial, ?_, ?_, ?_, ?_, ?_⟩
  · simp [Function.update_apply]
  · simp [Function.update_apply]
  · simp [Function.update_apply]
  · simp [Function.update_apply]
  · intro j hj
    rw [Function.update_noteq (by omega), Function.update_noteq (by omega),
      Function.update_noteq (by omega), Function.update_noteq (by omega)]

end BiquadRing

section DelayTheorems

variable {α : Type}

theorem delayLoop_pass_through [Ring α] (length : Nat) (feedback : α) (count : Nat) :
    ∀ (p offset : Nat) (buffer ring : Nat → α),
      (delayLoop { length := length, dryMix := 1, wetMix := 0, feedback := feedback }
        count p offset buffer ring).buffer = buffer := by
  induction count with
  | zero => intro p offset buffer ring; rfl
  | succ n ih =>
    intro p offset buffer ring
    simp only [delayLoop, ih, mul_one, mul_zero, add_zero, Function.update_eq_self]

/-- C5, the code at a failing input.  Mono delay, length 1, dryMix=0, wetMix=1,
feedback=0, three frames 5, 7, 9 and any ring content: the output at sample 2 is
5, the input at sample 0 (three positions earlier in a cursor cycle of
length + 1 = 2), while the input at sample 2 - length is 7. -/
theorem delay_echo_failing (ring : Nat → ℤ) :
    (delaySamples (ofList [5, 7, 9] 0) ring 1 3
      { length := 1, dryMix := 0, wetMix := 1, feedback := 0 }).buffer 2 = 5 ∧
    ofList [5, 7, 9] (0 : ℤ) (2 - 1) = 7 := by
  constructor
  · simp [delaySamples, delayLoop, Function.update_apply, ofList]
  · decide

/-- C6, the code at a failing input.  Mono delay, length 3, one frame, ring
[1, 2, 3]: the loop leaves the ring [5, 2, 3] and the cursor at 1; the call
returns, and float 1 of the shifted ring is 5 (the float the loop left at
position 0), whatever `malloc` returned, while a left rotation by 1 puts there
the float the loop left at position (1 + 1) mod 3, which is 3. -/
theorem delay_rotation_failing (temp0 : Nat → ℤ) :
    (delaySamples (ofList [5] 0) (ofList [1, 2, 3] 0) 1 1
      { length := 3, dryMix := 1, wetMix := 0, feedback := 0 }).offset = 1 ∧
    (delaySamples (ofList [5] 0) (ofList [1, 2, 3] 0) 1 1
      { length := 3, dryMix := 1, wetMix := 0, feedback := 0 }).ring ((1 + 1) % 3) = 3 ∧
    ∃ r, delay temp0 (ofList [5] 0) (ofList [1, 2, 3] 0) 1 1
        { length := 3, dryMix := 1, wetMix := 0, feedback := 0 } = some r ∧
      r.2 1 = 5 := by
  refine ⟨by decide, by decide, ?_⟩
  simp [delay, delaySamples, delayLoop, delayShift, memcpy, sizeofFloat,
    Function.update_apply, ofList]

/-- C7 (delay pass-through).  With dryMix=1, wetMix=0, feedback=0, the sample loop
of `delay` leaves every float of `buffer` as it was, for every channel count,
frame count, delay length and ring content; the ring shift that follows does not
write `buffer`, so a call that returns returns that same buffer. -/
theorem delay_pass_through [Ring α] (temp0 buffer ring : Nat → α)
    (channels frames length : Nat) :
    (delaySamples buffer ring channels frames
      { length := length, dryMix := 1, wetMix := 0, feedback := 0 }).buffer = buffer ∧
    ∀ r, delay temp0 buffer ring channels frames
      { length := length, dryMix := 1, wetMix := 0, feedback := 0 } = some r → r.1 = buffer := by
  have hs : (delaySamples buffer ring channels frames
      { length := length, dryMix := 1, wetMix := 0, feedback := 0 }).buffer = buffer := by
    unfold delaySamples
    split_ifs
    · exact delayLoop_pass_through length 0 frames 0 0 buffer ring
    · exact delayLoop_pass_through length 0 (frames * 2) 0 0 buffer ring
    · rfl
  refine ⟨hs, ?_⟩
  intro r hr
  simp only [delay, Option.map_eq_some'] at hr
  obtain ⟨ring1, _, rfl⟩ := hr
  exact hs

end DelayTheorems

section WrapLemmas

variable {α : Type} [LinearOrderedField α]

theorem wrapPhase_bounds (tableSize : Nat) (phaseReset : α) (hr : 0 ≤ phaseReset) (fuel : Nat) :
    ∀ (phase r : α), 0 ≤ phase → wrapPhase tableSize phaseReset fuel phase = some r →
      0 ≤ r ∧ r < (tableSize : α) := by
  induction fuel with
  | zero => intro phase r _ h; simp [wrapPhase] at h
  | succ n ih =>
    intro phase r hp h
    rw [wrapPhase] at h
    by_cases hc : phase ≥ (tableSize : α)
    · rw [if_pos hc] at h
      exact ih _ r (by linarith) h
    · rw [if_neg hc] at h
      obtain rfl : phase = r := Option.some.inj h
      exact ⟨hp, lt_of_not_ge hc⟩

theorem wrapPhase_diverges (tableSize : Nat) (phaseReset : α)
    (hr : (tableSize : α) ≤ phaseReset) (fuel : Nat) :
    ∀ phase : α, (tableSize : α) ≤ phase → wrapPhase tableSize phaseReset fuel phase = none := by
  induction fuel with
  | zero => intro phase _; rfl
  | succ n ih =>
    intro phase hp
    rw [wrapPhase, if_pos hp]
    exact ih _ (by linarith)

theorem wrapPhase_fuel (tableSize : Nat) (phaseReset : α) (n : Nat) :
    ∀ phase : α, phase < (tableSize : α) + n * ((tableSize : α) - phaseReset) →
      ∃ r, ∀ fuel, n + 1 ≤ fuel → wrapPhase tableSize phaseReset fuel phase = some r := by
  induction n with
  | zero =>
    intro phase hp
    refine ⟨phase, fun fuel hf => ?_⟩
    obtain ⟨f, rfl⟩ : ∃ f, fuel = f + 1 := ⟨fuel - 1, by omega⟩
    rw [wrapPhase, if_neg (not_le.mpr (by simpa using hp))]
  | succ n ih =>
    intro phase hp
    by_cases hc : phase ≥ (tableSize : α)
    · obtain ⟨r, hrr⟩ := ih (phase - (tableSize : α) + phaseReset) (by push_cast at hp; linarith)
      refine ⟨r, fun fuel hf => ?_⟩
      obtain ⟨f, rfl⟩ : ∃ f, fuel = f + 1 := ⟨fuel - 1, by omega⟩
      rw [wrapPhase, if_pos hc]
      exact hrr f (by omega)
    · refine ⟨phase, fun fuel hf => ?_⟩
      obtain ⟨f, rfl⟩ : ∃ f, fuel = f + 1 := ⟨fuel - 1, by omega⟩
      rw [wrapPhase, if_neg hc]

theorem interpolate_zero (a b : α) : interpolate a b 0 = a := by
  simp [interpolate]

theorem wrapPhase_natCast (N : Nat) (hN : 1 ≤ N) (j : Nat) (hj : j ≤ N) (fuel : Nat)
    (hf : 2 ≤ fuel) :
    wrapPhase N (0 : α) fuel (j : α) = some (((j % N : Nat)) : α) := by
  obtain ⟨f, rfl⟩ : ∃ f, fuel = f + 2 := ⟨fuel - 2, by omega⟩
  have hpos : (0 : α) < (N : α) := by exact_mod_cast hN
  by_cases h : j = N
  · subst h
    rw [wrapPhase, if_pos (le_refl _), wrapPhase,
      if_neg (by rw [sub_self, zero_add]; exact not_le.mpr hpos)]
    simp
  · have hlt : j < N := lt_of_le_of_ne hj h
    rw [wrapPhase, if_neg (not_le.mpr (by exact_mod_cast hlt)), Nat.mod_eq_of_lt hlt]

end WrapLemmas

section WavetableTheorems

variable {α : Type} [LinearOrderedField α] [FloorRing α]

theorem wrapPhase_terminates (tableSize : Nat) (phaseReset : α)
    (hr : phaseReset < (tableSize : α)) (phase : α) :
    ∃ fuel0 r, ∀ fuel, fuel0 ≤ fuel → wrapPhase tableSize phaseReset fuel phase = some r := by
  have hd : 0 < (tableSize : α) - phaseReset := by linarith
  obtain ⟨n, hn⟩ := exists_nat_gt ((phase - (tableSize : α)) / ((tableSize : α) - phaseReset))
  have hp : phase < (tableSize : α) + n * ((tableSize : α) - phaseReset) := by
    rw [div_lt_iff₀ hd] at hn
    linarith
  obtain ⟨r, h⟩ := wrapPhase_fuel tableSize phaseReset n phase hp
  exact ⟨n + 1, r, h⟩

theorem wavetableMonoLoop_terminates (tableSize : Nat) (phaseAdd phaseReset : α)
    (source : Int → α) (hr : phaseReset < (tableSize : α)) (count : Nat) :
    ∀ (p : Nat) (buffer : Nat → α) (phase : α), ∃ fuel0 out, ∀ fuel, fuel0 ≤ fuel →
      wavetableMonoLoop fuel tableSize phaseAdd phaseReset source count p buffer phase =
        some out := by
  induction count with
  | zero => intro p buffer phase; exact ⟨0, _, fun fuel _ => rfl⟩
  | succ n ih =>
    intro p buffer phase
    obtain ⟨f1, r, h1⟩ := wrapPhase_terminates tableSize phaseReset hr phase
    obtain ⟨f2, rest, h2⟩ := ih (p + 1)
      (Function.update buffer p (interpolate (source (Int.floor r))
        (source (Int.floor r + 1)) (r - ((Int.floor r : Int) : α)))) (r + phaseAdd)
    refine ⟨max f1 f2,
      ⟨rest.buffer, r :: rest.phases, Int.floor r :: (Int.floor r + 1) :: rest.reads,
        (r - ((Int.floor r : Int) : α)) :: rest.weights⟩,
      fun fuel hf => ?_⟩
    rw [wavetableMonoLoop, h1 fuel (le_trans (le_max_left _ _) hf)]
    simp only
    rw [h2 fuel (le_trans (le_max_right _ _) hf)]

theorem wavetableStereoLoop_terminates (tableSize : Nat) (phaseAdd phaseReset : α)
    (source : Int → α) (hr : phaseReset < (tableSize : α)) (count : Nat) :
    ∀ (p : Nat) (buffer : Nat → α) (phase : α), ∃ fuel0 out, ∀ fuel, fuel0 ≤ fuel →
      wavetableStereoLoop fuel tableSize phaseAdd phaseReset source count p buffer phase =
        some out := by
  induction count with
  | zero => intro p buffer phase; exact ⟨0, _, fun fuel _ => rfl⟩
  | succ n ih =>
    intro p buffer phase
    obtain ⟨f1, r, h1⟩ := wrapPhase_terminates tableSize phaseReset hr phase
    obtain ⟨f2, rest, h2⟩ := ih (p + 2)
      (Function.update (Function.update buffer p
          (interpolate (source (Int.floor (r * 0.5) * 2)) (source (Int.floor (r * 0.5) * 2 + 2))
            (r - ((Int.floor (r * 0.5) * 2 : Int) : α))))
        (p + 1)
        (interpolate (source (Int.floor (r * 0.5) * 2 + 1))
          (source (Int.floor (r * 0.5) * 2 + 3))
          (r - ((Int.floor (r * 0.5) * 2 : Int) : α)))) (r + phaseAdd)
    refine ⟨max f1 f2,
      ⟨rest.buffer, r :: rest.phases,
        Int.floor (r * 0.5) * 2 :: (Int.floor (r * 0.5) * 2 + 2) ::
          (Int.floor (r * 0.5) * 2 + 1) :: (Int.floor (r * 0.5) * 2 + 3) :: rest.reads,
        (r - ((Int.floor (r * 0.5) * 2 : Int) : α)) :: rest.weights⟩,
      fun fuel hf => ?_⟩
    rw [wavetableStereoLoop, h1 fuel (le_trans (le_max_left _ _) hf)]
    simp only
    rw [h2 fuel (le_trans (le_max_right _ _) hf)]

theorem wavetableMonoLoop_bounds (fuel tableSize : Nat) (phaseAdd phaseReset : α)
    (source : Int → α) (ha : 0 ≤ phaseAdd) (hr : 0 ≤ phaseReset) (count : Nat) :
    ∀ (p : Nat) (buffer : Nat → α) (phase : α) (out : WavetableRun α), 0 ≤ phase →
      wavetableMonoLoop fuel tableSize phaseAdd phaseReset source count p buffer phase =
        some out →
      out.phases.length = count ∧
      (∀ ph, ph ∈ out.phases → 0 ≤ ph ∧ ph < (tableSize : α)) ∧
      (∀ i, i ∈ out.reads → 0 ≤ i ∧ i ≤ (tableSize : Int)) := by
  induction count with
  | zero =>
    intro p buffer phase out _ h
    obtain rfl : (⟨buffer, [], [], []⟩ : WavetableRun α) = out := Option.some.inj h
    simp
  | succ n ih =>
    intro p buffer phase out hp h
    rw [wavetableMonoLoop] at h
    cases hw : wrapPhase tableSize phaseReset fuel phase with
    | none => rw [hw] at h; exact Option.noConfusion h
    | some r =>
      rw [hw] at h
      obtain ⟨hr0, hrN⟩ := wrapPhase_bounds tableSize phaseReset hr fuel phase r hp hw
      dsimp only at h
      split at h
      · exact Option.noConfusion h
      · rename_i rest hl
        obtain rfl := Option.some.inj h
        obtain ⟨ih1, ih2, ih3⟩ := ih _ _ _ rest (by linarith) hl
        have hf0 : 0 ≤ Int.floor r := Int.floor_nonneg.mpr hr0
        have hfN : Int.floor r < (tableSize : Int) := Int.floor_lt.mpr (by exact_mod_cast hrN)
        refine ⟨by simp [ih1], ?_, ?_⟩
        · intro ph hph
          rcases List.mem_cons.mp hph with rfl | hph
          · exact ⟨hr0, hrN⟩
          · exact ih2 ph hph
        · intro i hi
          rcases List.mem_cons.mp hi with rfl | hi
          · exact ⟨hf0, le_of_lt hfN⟩
          · rcases List.mem_cons.mp hi with rfl | hi
            · exact ⟨by omega, by omega⟩
            · exact ih3 i hi

theorem wavetableStereoLoop_bounds (fuel tableSize : Nat) (phaseAdd phaseReset : α)
    (source : Int → α) (ha : 0 ≤ phaseAdd) (hr : 0 ≤ phaseReset) (count : Nat) :
    ∀ (p : Nat) (buffer : Nat → α) (phase : α) (out : WavetableRun α), 0 ≤ phase →
      wavetableStereoLoop fuel tableSize phaseAdd phaseReset source count p buffer phase =
        some out →
      out.phases.length = count ∧
      (∀ ph, ph ∈ out.phases → 0 ≤ ph ∧ ph < (tableSize : α)) ∧
      (∀ i, i ∈ out.reads → 0 ≤ i ∧ i < 2 * ((tableSize : Int) + 1)) := by
  induction count with
  | zero =>
    intro p buffer phase out _ h
    obtain rfl : (⟨buffer, [], [], []⟩ : WavetableRun α) = out := Option.some.inj h
    simp
  | succ n ih =>
    intro p buffer phase out hp h
    rw [wavetableStereoLoop] at h
    cases hw : wrapPhase tableSize phaseReset fuel phase with
    | none => rw [hw] at h; exact Option.noConfusion h
    | some r =>
      rw [hw] at h
      obtain ⟨hr0, hrN⟩ := wrapPhase_bounds tableSize phaseReset hr fuel phase r hp hw
      dsimp only at h
      split at h
      · exact Option.noConfusion h
      · rename_i rest hl
        obtain rfl := Option.some.inj h
        obtain ⟨ih1, ih2, ih3⟩ := ih _ _ _ rest (by linarith) hl
        have hf0 : 0 ≤ Int.floor (r * 0.5) := Int.floor_nonneg.mpr (by norm_num; linarith)
        have hfN : Int.floor (r * 0.5) * 2 < (tableSize : Int) := by
          have h1 : ((Int.floor (r * 0.5) : Int) : α) ≤ r * 0.5 := Int.floor_le _
          have h2 : (((Int.floor (r * 0.5) * 2 : Int)) : α) < ((tableSize : Int) : α) := by
            push_cast
            norm_num at h1
            linarith
          exact_mod_cast h2
        refine ⟨by simp [ih1], ?_, ?_⟩
        · intro ph hph
          rcases List.mem_cons.mp hph with rfl | hph
          · exact ⟨hr0, hrN⟩
          · exact ih2 ph hph
        · intro i hi
          rcases List.mem_cons.mp hi with rfl | hi
          · exact ⟨by omega, by omega⟩
          · rcases List.mem_cons.mp hi with rfl | hi
            · exact ⟨by omega, by omega⟩
            · rcases List.mem_cons.mp hi with rfl | hi
              · exact ⟨by omega, by omega⟩
              · rcases List.mem_cons.mp hi with rfl | hi
                · exact ⟨by omega, by omega⟩
                · exact ih3 i hi

theorem wavetableMonoLoop_periodic (N : Nat) (hN : 1 ≤ N) (fuel : Nat) (hf : 2 ≤ fuel)
    (source : Int → α) (count : Nat) :
    ∀ (p : Nat) (buffer : Nat → α) (j : Nat), j ≤ N →
      ∃ out, wavetableMonoLoop fuel N (1 : α) 0 source count p buffer (j : α) = some out ∧
        (∀ k, k < count → out.buffer (p + k) = source (((j + k) % N : Nat) : Int)) ∧
        (∀ i, i < p → out.buffer i = buffer i) := by
  induction count with
  | zero =>
    intro p buffer j _
    exact ⟨_, rfl, fun k hk => absurd hk (Nat.not_lt_zero k), fun i _ => rfl⟩
  | succ n ih =>
    intro p buffer j hj
    have hm : j % N < N := Nat.mod_lt j hN
    obtain ⟨rest, hrest, hout, hframe⟩ := ih (p + 1)
      (Function.update buffer p (source ((j % N : Nat) : Int))) (j % N + 1) (by omega)
    have hfl : Int.floor (((j % N : Nat)) : α) = ((j % N : Nat) : Int) := Int.floor_natCast _
    have e1 : interpolate (source ((j % N : Nat) : Int)) (source (((j % N : Nat) : Int) + 1))
        ((((j % N : Nat)) : α) - ((((j % N : Nat) : Int)) : α)) = source ((j % N : Nat) : Int) := by
      rw [Int.cast_natCast, sub_self, interpolate_zero]
    have e2 : (((j % N : Nat)) : α) + 1 = (((j % N + 1 : Nat)) : α) := by push_cast; rfl
    refine ⟨⟨rest.buffer, (((j % N : Nat)) : α) :: rest.phases,
      ((j % N : Nat) : Int) :: (((j % N : Nat) : Int) + 1) :: rest.reads,
      ((((j % N : Nat)) : α) - ((((j % N : Nat) : Int)) : α)) :: rest.weights⟩, ?_, ?_, ?_⟩
    · rw [wavetableMonoLoop, wrapPhase_natCast N hN j hj fuel hf]
      simp only [hfl]
      rw [e1, e2, hrest]
    · intro k hk
      show rest.buffer (p + k) = _
      rcases Nat.eq_zero_or_pos k with rfl | hpos
      · rw [hframe (p + 0) (by omega)]
        simp
      · have := hout (k - 1) (by omega)
        rw [show p + 1 + (k - 1) = p + k by omega] at this
        rw [this, show j % N + 1 + (k - 1) = j % N + k by omega, Nat.mod_add_mod]
    · intro i hi
      show rest.buffer i = _
      rw [hframe i (by omega), Function.update_noteq (by omega)]

theorem wavetableMonoLoop_length (fuel tableSize : Nat) (phaseAdd phaseReset : α)
    (source : Int → α) (count : Nat) :
    ∀ (p : Nat) (buffer : Nat → α) (phase : α) (out : WavetableRun α),
      wavetableMonoLoop fuel tableSize phaseAdd phaseReset source count p buffer phase =
        some out → out.phases.length = count := by
  induction count with
  | zero =>
    intro p buffer phase out h
    obtain rfl : (⟨buffer, [], [], []⟩ : WavetableRun α) = out := Option.some.inj h
    rfl
  | succ n ih =>
    intro p buffer phase out h
    rw [wavetableMonoLoop] at h
    split at h
    · exact Option.noConfusion h
    · dsimp only at h
      split at h
      · exact Option.noConfusion h
      · rename_i rest hl
        obtain rfl := Option.some.inj h
        simp [ih _ _ _ rest hl]

theorem wavetableStereoLoop_length (fuel tableSize : Nat) (phaseAdd phaseReset : α)
    (source : Int → α) (count : Nat) :
    ∀ (p : Nat) (buffer : Nat → α) (phase : α) (out : WavetableRun α),
      wavetableStereoLoop fuel tableSize phaseAdd phaseReset source count p buffer phase =
        some out → out.phases.length = count := by
  induction count with
  | zero =>
    intro p buffer phase out h
    obtain rfl : (⟨buffer, [], [], []⟩ : WavetableRun α) = out := Option.some.inj h
    rfl
  | succ n ih =>
    intro p buffer phase out h
    rw [wavetableStereoLoop] at h
    split at h
    · exact Option.noConfusion h
    · dsimp only at h
      split at h
      · exact Option.noConfusion h
      · rename_i rest hl
        obtain rfl := Option.some.inj h
        simp [ih _ _ _ rest hl]

/-- C8 (wavetable periodicity).  Mono `wavetableIn` with tableSize = N >= 1,
phase = 0, phaseReset = 0 and phaseAdd = 1/N returns (two evaluations of the wrap
condition per frame suffice) and its output satisfies output[k] = source[k mod N]
for every k < frames, for every table, buffer and frame count. -/
theorem wavetable_periodicity (buffer : Nat → α) (source : Int → α) (N frames fuel : Nat)
    (hN : 1 ≤ N) (hf : 2 ≤ fuel) :
    ∃ out, wavetableIn fuel buffer source 1 frames
        { tableSize := N, phase := 0, phaseAdd := 1 / (N : α), phaseReset := 0 } = some out ∧
      ∀ k, k < frames → out.buffer k = source ((k % N : Nat) : Int) := by
  have hne : (N : α) ≠ 0 := by
    have : (0 : α) < (N : α) := by exact_mod_cast hN
    exact ne_of_gt this
  obtain ⟨out, h1, h2, _⟩ :=
    wavetableMonoLoop_periodic N hN fuel hf source frames 0 buffer 0 (Nat.zero_le N) (α := α)
  refine ⟨out, ?_, ?_⟩
  · simp only [wavetableIn, if_true, zero_mul, one_div, inv_mul_cancel₀ hne]
    simpa using h1
  · intro k hk
    simpa using h2 k hk

/-- C9 (wavetable read bounds).  For tableSize >= 1, settings phase >= 0 (so in
particular in [0,1)), phaseReset in [0,1), phaseAdd >= 0 and channels 1 or 2, the
call returns, and in every run
that returns: there is one wrapped phase per output frame, each with
0 <= phase < tableSize; every offset of `source` read is >= 0 and, mono, at most
tableSize (the offsets i and i+1 of a frame have i+1 <= tableSize), stereo, below
2*(tableSize+1). -/
theorem wavetable_read_bounds (buffer : Nat → α) (source : Int → α) (channels frames : Nat)
    (s : WavetableSettings α) (hN : 1 ≤ s.tableSize) (hp0 : 0 ≤ s.phase)
    (hr0 : 0 ≤ s.phaseReset) (hr1 : s.phaseReset < 1) (ha : 0 ≤ s.phaseAdd)
    (hc : channels = 1 ∨ channels = 2) :
    (∃ fuel0 out, ∀ fuel, fuel0 ≤ fuel →
      wavetableIn fuel buffer source channels frames s = some out) ∧
    ∀ fuel out, wavetableIn fuel buffer source channels frames s = some out →
      out.phases.length = frames ∧
      (∀ ph, ph ∈ out.phases → 0 ≤ ph ∧ ph < (s.tableSize : α)) ∧
      (channels = 1 → ∀ i, i ∈ out.reads → 0 ≤ i ∧ i ≤ (s.tableSize : Int)) ∧
      (channels = 2 → ∀ i, i ∈ out.reads → 0 ≤ i ∧ i < 2 * ((s.tableSize : Int) + 1)) := by
  have hpos : (0 : α) < (s.tableSize : α) := by exact_mod_cast hN
  have hR : s.phaseReset * (s.tableSize : α) < (s.tableSize : α) := by
    calc s.phaseReset * (s.tableSize : α) < 1 * (s.tableSize : α) :=
          mul_lt_mul_of_pos_right hr1 hpos
      _ = (s.tableSize : α) := one_mul _
  have hR0 : 0 ≤ s.phaseReset * (s.tableSize : α) := mul_nonneg hr0 (le_of_lt hpos)
  have hA0 : 0 ≤ s.phaseAdd * (s.tableSize : α) := mul_nonneg ha (le_of_lt hpos)
  have hP0 : 0 ≤ s.phase * (s.tableSize : α) := mul_nonneg hp0 (le_of_lt hpos)
  rcases hc with rfl | rfl
  · refine ⟨?_, ?_⟩
    · simp only [wavetableIn, if_true]
      exact wavetableMonoLoop_terminates s.tableSize _ _ source hR frames 0 buffer _
    · intro fuel out h
      simp only [wavetableIn, if_true] at h
      obtain ⟨b1, b2, b3⟩ := wavetableMonoLoop_bounds fuel s.tableSize _ _ source hA0 hR0
        frames 0 buffer _ out hP0 h
      exact ⟨b1, b2, fun _ => b3, fun h21 => absurd h21 (by decide)⟩
  · refine ⟨?_, ?_⟩
    · simp only [wavetableIn, if_true, if_neg (show ¬ (2 = 1) by decide)]
      exact wavetableStereoLoop_terminates s.tableSize _ _ source hR frames 0 buffer _
    · intro fuel out h
      simp only [wavetableIn, if_true, if_neg (show ¬ (2 = 1) by decide)] at h
      obtain ⟨b1, b2, b3⟩ := wavetableStereoLoop_bounds fuel s.tableSize _ _ source hA0 hR0
        frames 0 buffer _ out hP0 h
      exact ⟨b1, b2, fun h21 => absurd h21 (by decide), fun _ => b3⟩

/-- C10, as stated, fails: with tableSize = 1, phase = 1/2, phaseAdd = 1/2 (both in
[0,1)), phaseReset = 1 and two frames, the wrap loop of the second frame starts at
phase 1 and maps 1 to 1 - 1 + 1 = 1 forever: no amount of fuel makes the call
return. -/
theorem wavetable_phaseReset_diverges :
    ¬ ∃ fuel : Nat, (wavetableIn fuel (fun _ => (0 : ℚ)) (fun _ => 0) 1 2
      { tableSize := 1, phase := 1 / 2, phaseAdd := 1 / 2, phaseReset := 1 }).isSome = true := by
  rintro ⟨fuel, h⟩
  have hd : wrapPhase 1 ((1 : ℚ) * ((1 : Nat) : ℚ)) fuel (1 / 2 * ((1 : Nat) : ℚ) +
      1 / 2 * ((1 : Nat) : ℚ)) = none :=
    wrapPhase_diverges 1 _ (by norm_num) fuel _ (by norm_num)
  cases fuel with
  | zero => simp [wavetableIn, wavetableMonoLoop, wrapPhase] at h
  | succ f =>
    have h0 : wrapPhase 1 ((1 : ℚ) * ((1 : Nat) : ℚ)) (f + 1) (1 / 2 * ((1 : Nat) : ℚ)) =
        some (1 / 2 * ((1 : Nat) : ℚ)) := by
      rw [wrapPhase, if_neg (by norm_num)]
    simp only [wavetableIn, if_true, wavetableMonoLoop, h0, hd] at h
    exact absurd h (by simp)

/-- C10, amended: for every tableSize >= 1, every frame count, every phase and
phaseAdd and every phaseReset < 1, the wrap loop terminates at every output
frame: some amount of fuel makes `wavetableIn` return, every larger amount
returns the same run, and for channels 1 or 2 the run has exactly `frames`
frames. -/
theorem wavetable_terminates (buffer : Nat → α) (source : Int → α) (channels frames : Nat)
    (s : WavetableSettings α) (hN : 1 ≤ s.tableSize) (hr1 : s.phaseReset < 1) :
    ∃ fuel0 out, (∀ fuel, fuel0 ≤ fuel →
        wavetableIn fuel buffer source channels frames s = some out) ∧
      (channels = 1 ∨ channels = 2 → out.phases.length = frames) := by
  have hpos : (0 : α) < (s.tableSize : α) := by exact_mod_cast hN
  have hR : s.phaseReset * (s.tableSize : α) < (s.tableSize : α) := by
    calc s.phaseReset * (s.tableSize : α) < 1 * (s.tableSize : α) :=
          mul_lt_mul_of_pos_right hr1 hpos
      _ = (s.tableSize : α) := one_mul _
  by_cases h1 : channels = 1
  · subst h1
    obtain ⟨f, out, h⟩ := wavetableMonoLoop_terminates s.tableSize
      (s.phaseAdd * (s.tableSize : α)) _ source hR frames 0 buffer (s.phase * (s.tableSize : α))
    refine ⟨f, out, ?_, fun _ => wavetableMonoLoop_length _ _ _ _ _ _ _ _ _ _ (h f (le_refl f))⟩
    intro fuel hf
    simp only [wavetableIn, if_true]
    exact h fuel hf
  · by_cases h2 : channels = 2
    · subst h2
      obtain ⟨f, out, h⟩ := wavetableStereoLoop_terminates s.tableSize
        (s.phaseAdd * (s.tableSize : α)) _ source hR frames 0 buffer
        (s.phase * (s.tableSize : α))
      refine ⟨f, out, ?_,
        fun _ => wavetableStereoLoop_length _ _ _ _ _ _ _ _ _ _ (h f (le_refl f))⟩
      intro fuel hf
      simp only [wavetableIn, if_true, if_neg (show ¬ (2 = 1) by decide)]
      exact h fuel hf
    · refine ⟨0, ⟨buffer, [], [], []⟩, ?_, fun h => absurd h (by omega)⟩
      intro fuel _
      simp only [wavetableIn, if_neg h1, if_neg h2]

end WavetableTheorems

section StandardizeTheorems

variable {α : Type}

theorem upsampleStereoizeLoop_written (src : Nat → α) (count : Nat) :
    ∀ (p q : Nat) (buffer : Nat → α),
      (upsampleStereoizeLoop src count p q buffer).2 = List.range' p (4 * count) := by
  induction count with
  | zero => intro p q buffer; rfl
  | succ n ih =>
    intro p q buffer
    rw [upsampleStereoizeLoop]
    simp only [ih, show 4 * (n + 1) = 4 * n + 1 + 1 + 1 + 1 by omega, List.range'_succ]

theorem upsampleLoop_written (src : Nat → α) (count : Nat) :
    ∀ (p q : Nat) (buffer : Nat → α),
      (upsampleLoop src count p q buffer).2 = List.range' p (4 * count) := by
  induction count with
  | zero => intro p q buffer; rfl
  | succ n ih =>
    intro p q buffer
    rw [upsampleLoop]
    simp only [ih, show 4 * (n + 1) = 4 * n + 1 + 1 + 1 + 1 by omega, List.range'_succ]

theorem stereoizeLoop_written (src : Nat → α) (count : Nat) :
    ∀ (p q : Nat) (buffer : Nat → α),
      (stereoizeLoop src count p q buffer).2 = List.range' p (2 * count) := by
  induction count with
  | zero => intro p q buffer; rfl
  | succ n ih =>
    intro p q buffer
    rw [stereoizeLoop]
    simp only [ih, show 2 * (n + 1) = 2 * n + 1 + 1 by omega, List.range'_succ]

theorem upsampleStereoizeLoop_frame (src : Nat → α) (count : Nat) :
    ∀ (p q : Nat) (buffer : Nat → α) (j : Nat), (j < p ∨ p + 4 * count ≤ j) →
      (upsampleStereoizeLoop src count p q buffer).1 j = buffer j := by
  induction count with
  | zero => intro p q buffer j _; rfl
  | succ n ih =>
    intro p q buffer j hj
    rw [upsampleStereoizeLoop]
    simp only
    rw [ih (p + 4) (q + 1) _ j (by omega), Function.update_noteq (by omega),
      Function.update_noteq (by omega), Function.update_noteq (by omega),
      Function.update_noteq (by omega)]

theorem upsampleLoop_frame (src : Nat → α) (count : Nat) :
    ∀ (p q : Nat) (buffer : Nat → α) (j : Nat), (j < p ∨ p + 4 * count ≤ j) →
      (upsampleLoop src count p q buffer).1 j = buffer j := by
  induction count with
  | zero => intro p q buffer j _; rfl
  | succ n ih =>
    intro p q buffer j hj
    rw [upsampleLoop]
    simp only
    rw [ih (p + 4) (q + 2) _ j (by omega), Function.update_noteq (by omega),
      Function.update_noteq (by omega), Function.update_noteq (by omega),
      Function.update_noteq (by omega)]

theorem stereoizeLoop_frame (src : Nat → α) (count : Nat) :
    ∀ (p q : Nat) (buffer : Nat → α) (j : Nat), (j < p ∨ p + 2 * count ≤ j) →
      (stereoizeLoop src count p q buffer).1 j = buffer j := by
  induction count with
  | zero => intro p q buffer j _; rfl
  | succ n ih =>
    intro p q buffer j hj
    rw [stereoizeLoop]
    simp only
    rw [ih (p + 2) (q + 1) _ j (by omega), Function.update_noteq (by omega),
      Function.update_noteq (by omega)]

theorem upsampleStereoizeLoop_values (src : Nat → α) (count : Nat) :
    ∀ (p q : Nat) (buffer : Nat → α) (k : Nat), k < count →
      (upsampleStereoizeLoop src count p q buffer).1 (p + 4 * k) = src (q + k) ∧
      (upsampleStereoizeLoop src count p q buffer).1 (p + 4 * k + 1) = src (q + k) ∧
      (upsampleStereoizeLoop src count p q buffer).1 (p + 4 * k + 2) = src (q + k) ∧
      (upsampleStereoizeLoop src count p q buffer).1 (p + 4 * k + 3) = src (q + k) := by
  induction count with
  | zero => intro p q buffer k hk; exact absurd hk (Nat.not_lt_zero k)
  | succ n ih =>
    intro p q buffer k hk
    rw [upsampleStereoizeLoop]
    simp only
    rcases Nat.eq_zero_or_pos k with rfl | hpos
    · rw [upsampleStereoizeLoop_frame src n (p + 4) (q + 1) _ _ (by omega),
        upsampleStereoizeLoop_frame src n (p + 4) (q + 1) _ _ (by omega),
        upsampleStereoizeLoop_frame src n (p + 4) (q + 1) _ _ (by omega),
        upsampleStereoizeLoop_frame src n (p + 4) (q + 1) _ _ (by omega)]
      simp [Function.update_apply]
    · have h := ih (p + 4) (q + 1)
        (Function.update (Function.update (Function.update (Function.update buffer
          p (src q)) (p + 1) (src q)) (p + 2) (src q)) (p + 3) (src q)) (k - 1) (by omega)
      rw [show p + 4 + 4 * (k - 1) = p + 4 * k by omega,
        show q + 1 + (k - 1) = q + k by omega] at h
      exact h

theorem memcpy_prefix_apply (dest src : Nat → α) (n i : Nat) :
    memcpy dest src 0 0 n i = if i < n then src i else dest i := by
  simp [memcpy]

theorem standardize_copy_branch (buffer src : Nat → α) (frames : Nat) :
    standardize buffer src 2 frames 44100 =
      ⟨memcpy buffer src 0 0 (2 * frames), src, List.range (2 * frames)⟩ := by
  have hdiv : frames * 2 * sizeofFloat / sizeofFloat = 2 * frames := by
    rw [Nat.mul_div_cancel _ (show 0 < sizeofFloat by decide), Nat.mul_comm]
  unfold standardize
  rw [if_pos (show (44100 : Int) = 44100 ∧ 2 = 2 from ⟨rfl, rfl⟩), hdiv]

theorem standardize_upsampleStereoize_branch (buffer src : Nat → α) (frames : Nat) :
    standardize buffer src 1 frames 22050 =
      ⟨(upsampleStereoizeLoop src (frames / 2) 0 0 buffer).1, src,
        (upsampleStereoizeLoop src (frames / 2) 0 0 buffer).2⟩ := by
  unfold standardize
  rw [if_neg (show ¬ ((22050 : Int) = 44100 ∧ 1 = 2) by decide),
    if_pos (show (22050 : Int) = 22050 ∧ 1 = 1 from ⟨rfl, rfl⟩)]

theorem standardize_upsample_branch (buffer src : Nat → α) (frames : Nat) :
    standardize buffer src 2 frames 22050 =
      ⟨(upsampleLoop src (frames / 2) 0 0 buffer).1, src,
        (upsampleLoop src (frames / 2) 0 0 buffer).2⟩ := by
  unfold standardize
  rw [if_neg (show ¬ ((22050 : Int) = 44100 ∧ 2 = 2) by decide),
    if_neg (show ¬ ((22050 : Int) = 22050 ∧ 2 = 1) by decide),
    if_pos (show (22050 : Int) = 22050 ∧ 2 = 2 from ⟨rfl, rfl⟩)]

theorem standardize_stereoize_branch (buffer src : Nat → α) (frames : Nat) :
    standardize buffer src 1 frames 44100 =
      ⟨(stereoizeLoop src frames 0 0 buffer).1, src,
        (stereoizeLoop src frames 0 0 buffer).2⟩ := by
  unfold standardize
  rw [if_neg (show ¬ ((44100 : Int) = 44100 ∧ 1 = 2) by decide),
    if_neg (show ¬ ((44100 : Int) = 22050 ∧ 1 = 1) by decide),
    if_neg (show ¬ ((44100 : Int) = 22050 ∧ 1 = 2) by decide),
    if_pos (show (44100 : Int) = 44100 ∧ 1 = 1 from ⟨rfl, rfl⟩)]

/-- C11, as stated, fails: with rate=22050, channels=1 and frames=1 the loop count
is 1/2 = 0 and nothing is written, while the first 2*frames floats are the floats
0 and 1. -/
theorem standardize_odd_frames_short :
    ¬ ((standardize (fun _ => (9 : ℤ)) (ofList [1] 0) 1 1 22050).written = List.range (2 * 1) ∧
      ∀ i, 2 * 1 ≤ i →
        (standardize (fun _ => (9 : ℤ)) (ofList [1] 0) 1 1 22050).buffer i = (fun _ => 9) i) := by
  intro h
  exact absurd h.1 (by decide)

/-- C11, amended: in each of the four supported (rate, channels) combinations and
for every frame count, `standardize` writes exactly the first 2*frames floats of
`dest` when rate is 44100 and exactly the first 4*(frames/2) floats (integer
division) when rate is 22050, each once and in order, and leaves every later
float of `dest` unchanged; when frames is even that is 2*frames floats in all four
paths. -/
theorem standardize_written (buffer src : Nat → α) (channels frames : Nat) (rate : Int)
    (h : (rate = 44100 ∧ channels = 2) ∨ (rate = 22050 ∧ channels = 1) ∨
      (rate = 22050 ∧ channels = 2) ∨ (rate = 44100 ∧ channels = 1)) :
    (standardize buffer src channels frames rate).written =
      List.range (if rate = 22050 then 4 * (frames / 2) else 2 * frames) ∧
    (∀ i, (if rate = 22050 then 4 * (frames / 2) else 2 * frames) ≤ i →
      (standardize buffer src channels frames rate).buffer i = buffer i) ∧
    (frames % 2 = 0 →
      (standardize buffer src channels frames rate).written = List.range (2 * frames)) := by
  have heven : frames % 2 = 0 → 4 * (frames / 2) = 2 * frames := fun he => by omega
  have h1 : ¬ ((44100 : Int) = 22050) := by decide
  rcases h with ⟨rfl, rfl⟩ | ⟨rfl, rfl⟩ | ⟨rfl, rfl⟩ | ⟨rfl, rfl⟩
  · rw [standardize_copy_branch, if_neg h1]
    refine ⟨rfl, ?_, fun _ => rfl⟩
    intro i hi
    show memcpy buffer src 0 0 (2 * frames) i = buffer i
    rw [memcpy_prefix_apply, if_neg (by omega)]
  · rw [standardize_upsampleStereoize_branch, if_pos rfl]
    have hw := upsampleStereoizeLoop_written src (frames / 2) 0 0 buffer
    rw [← List.range_eq_range'] at hw
    refine ⟨hw, ?_, fun he => ?_⟩
    · intro i hi
      exact upsampleStereoizeLoop_frame src _ 0 0 buffer i (by omega)
    · rw [← heven he]; exact hw
  · rw [standardize_upsample_branch, if_pos rfl]
    have hw := upsampleLoop_written src (frames / 2) 0 0 buffer
    rw [← List.range_eq_range'] at hw
    refine ⟨hw, ?_, fun he => ?_⟩
    · intro i hi
      exact upsampleLoop_frame src _ 0 0 buffer i (by omega)
    · rw [← heven he]; exact hw
  · rw [standardize_stereoize_branch, if_neg h1]
    have hw := stereoizeLoop_written src frames 0 0 buffer
    rw [← List.range_eq_range'] at hw
    refine ⟨hw, ?_, fun _ => hw⟩
    intro i hi
    exact stereoizeLoop_frame src _ 0 0 buffer i (by omega)

/-- C12 (standardize 22050/mono is 2x sample-and-hold plus stereo duplication).
With rate=22050 and channels=1, every k < frames/2 (integer division) has
dest[4k] = dest[4k+1] = dest[4k+2] = dest[4k+3] = src[k], and src is unchanged. -/
theorem standardize_upsample_mono (buffer src : Nat → α) (frames k : Nat)
    (hk : k < frames / 2) :
    (standardize buffer src 1 frames 22050).buffer (4 * k) = src k ∧
    (standardize buffer src 1 frames 22050).buffer (4 * k + 1) = src k ∧
    (standardize buffer src 1 frames 22050).buffer (4 * k + 2) = src k ∧
    (standardize buffer src 1 frames 22050).buffer (4 * k + 3) = src k ∧
    (standardize buffer src 1 frames 22050).sourceBuffer = src := by
  have h := upsampleStereoizeLoop_values src (frames / 2) 0 0 buffer k hk
  simp only [Nat.zero_add] at h
  rw [standardize_upsampleStereoize_branch]
  exact ⟨h.1, h.2.1, h.2.2.1, h.2.2.2, rfl⟩

/-- C13 (standardize 44100/stereo is `copy`).  With rate=44100 and channels=2,
`standardize` leaves in `dest` exactly what `copy(dest, src, 2, frames)` leaves:
the first 2*frames floats of `src`, the later floats of `dest` as they were. -/
theorem standardize_eq_copy (buffer src : Nat → α) (frames : Nat) :
    (standardize buffer src 2 frames 44100).buffer = (copy buffer src 2 frames).buffer ∧
    ∀ i, (standardize buffer src 2 frames 44100).buffer i =
      if i < 2 * frames then src i else buffer i := by
  have hdiv : frames * 2 * sizeofFloat / sizeofFloat = 2 * frames := by
    rw [Nat.mul_div_cancel _ (show 0 < sizeofFloat by decide), Nat.mul_comm]
  rw [standardize_copy_branch]
  refine ⟨?_, fun i => memcpy_prefix_apply buffer src (2 * frames) i⟩
  show memcpy buffer src 0 0 (2 * frames) =
    memcpy buffer src 0 0 (frames * 2 * sizeofFloat / sizeofFloat)
  rw [hdiv]

/-- C14 (standardize is a no-op on unsupported formats).  For every (rate, channels)
pair other than (44100,2), (22050,1), (22050,2) and (44100,1), and every frame
count, `standardize` writes nothing: `dest` and `src` are left unchanged. -/
theorem standardize_unsupported (buffer src : Nat → α) (channels frames : Nat) (rate : Int)
    (h : ¬ ((rate = 44100 ∧ channels = 2) ∨ (rate = 22050 ∧ channels = 1) ∨
      (rate = 22050 ∧ channels = 2) ∨ (rate = 44100 ∧ channels = 1))) :
    (standardize buffer src channels frames rate).buffer = buffer ∧
    (standardize buffer src channels frames rate).sourceBuffer = src ∧
    (standardize buffer src channels frames rate).written = [] := by
  simp only [not_or] at h
  obtain ⟨h1, h2, h3, h4⟩ := h
  have e : standardize buffer src channels frames rate = ⟨buffer, src, []⟩ := by
    unfold standardize
    rw [if_neg h1, if_neg h2, if_neg h3, if_neg h4]
  rw [e]
  exact ⟨rfl, rfl, rfl⟩

end StandardizeTheorems

section LevelTheorems

variable {α : Type}

theorem changeGainMonoLoop_apply [Mul α] (g : α) (count : Nat) :
    ∀ (p : Nat) (buffer : Nat → α) (j : Nat),
      changeGainMonoLoop g count p buffer j =
        if p ≤ j ∧ j < p + count then buffer j * g else buffer j := by
  induction count with
  | zero =>
    intro p buffer j
    rw [changeGainMonoLoop, if_neg (by omega)]
  | succ n ih =>
    intro p buffer j
    rw [changeGainMonoLoop, ih]
    by_cases h1 : j = p
    · subst h1
      rw [if_neg (by omega), if_pos (by omega), Function.update_same]
    · rw [Function.update_noteq h1]
      by_cases h2 : p + 1 ≤ j ∧ j < p + 1 + n
      · rw [if_pos h2, if_pos (by omega)]
      · rw [if_neg h2, if_neg (by omega)]

theorem changeGainStereoLoop_apply [Mul α] (l r : α) (count : Nat) :
    ∀ (p : Nat) (buffer : Nat → α) (j : Nat),
      changeGainStereoLoop l r count p buffer j =
        if p ≤ j ∧ j < p + 2 * count then
          buffer j * (if (j - p) % 2 = 0 then l else r)
        else buffer j := by
  induction count with
  | zero =>
    intro p buffer j
    rw [changeGainStereoLoop, if_neg (by omega)]
  | succ n ih =>
    intro p buffer j
    rw [changeGainStereoLoop, ih]
    by_cases h1 : j = p
    · subst h1
      rw [if_neg (by omega), if_pos (by omega), Function.update_noteq (by omega),
        Function.update_same, if_pos (by omega)]
    · by_cases h2 : j = p + 1
      · subst h2
        rw [if_neg (by omega), if_pos (by omega), Function.update_same,
          Function.update_noteq (by omega), if_neg (by omega)]
      · rw [Function.update_noteq h2, Function.update_noteq h1]
        by_cases h3 : p + 2 ≤ j ∧ j < p + 2 + 2 * n
        · have e : (j - (p + 2)) % 2 = (j - p) % 2 := by omega
          rw [if_pos h3, if_pos (show p ≤ j ∧ j < p + 2 * (n + 1) by omega), e]
        · rw [if_neg h3, if_neg (by omega)]

theorem mixInMonoLoop_apply [Add α] [Mul α] (src : Nat → α) (g : α) (count : Nat) :
    ∀ (p : Nat) (buffer : Nat → α) (j : Nat),
      mixInMonoLoop src g count p buffer j =
        if p ≤ j ∧ j < p + count then buffer j + src j * g else buffer j := by
  induction count with
  | zero =>
    intro p buffer j
    rw [mixInMonoLoop, if_neg (by omega)]
  | succ n ih =>
    intro p buffer j
    rw [mixInMonoLoop, ih]
    by_cases h1 : j = p
    · subst h1
      rw [if_neg (by omega), if_pos (by omega), Function.update_same]
    · rw [Function.update_noteq h1]
      by_cases h2 : p + 1 ≤ j ∧ j < p + 1 + n
      · rw [if_pos h2, if_pos (by omega)]
      · rw [if_neg h2, if_neg (by omega)]

theorem mixInStereoLoop_apply [Add α] [Mul α] (src : Nat → α) (l r : α) (count : Nat) :
    ∀ (p : Nat) (buffer : Nat → α) (j : Nat),
      mixInStereoLoop src l r count p buffer j =
        if p ≤ j ∧ j < p + 2 * count then
          buffer j + src j * (if (j - p) % 2 = 0 then l else r)
        else buffer j := by
  induction count with
  | zero =>
    intro p buffer j
    rw [mixInStereoLoop, if_neg (by omega)]
  | succ n ih =>
    intro p buffer j
    rw [mixInStereoLoop, ih]
    by_cases h1 : j = p
    · subst h1
      rw [if_neg (by omega), if_pos (by omega), Function.update_noteq (by omega),
        Function.update_same, if_pos (by omega)]
    · by_cases h2 : j = p + 1
      · subst h2
        rw [if_neg (by omega), if_pos (by omega), Function.update_same,
          Function.update_noteq (by omega), if_neg (by omega)]
      · rw [Function.update_noteq h2, Function.update_noteq h1]
        by_cases h3 : p + 2 ≤ j ∧ j < p + 2 + 2 * n
        · have e : (j - (p + 2)) % 2 = (j - p) % 2 := by omega
          rw [if_pos h3, if_pos (show p ≤ j ∧ j < p + 2 * (n + 1) by omega), e]
        · rw [if_neg h3, if_neg (by omega)]

theorem changeGain_mono_apply [Mul α] (buffer : Nat → α) (frames : Nat) (l r : α) (j : Nat) :
    changeGain buffer 1 frames l r j = if j < frames then buffer j * l else buffer j := by
  unfold changeGain
  rw [if_pos rfl, changeGainMonoLoop_apply]
  by_cases h : j < frames
  · rw [if_pos (by omega), if_pos h]
  · rw [if_neg (by omega), if_neg h]

theorem changeGain_stereo_apply [Mul α] (buffer : Nat → α) (frames : Nat) (l r : α) (j : Nat) :
    changeGain buffer 2 frames l r j =
      if j < 2 * frames then buffer j * (if j % 2 = 0 then l else r) else buffer j := by
  unfold changeGain
  rw [if_neg (by decide), if_pos rfl, changeGainStereoLoop_apply]
  by_cases h : j < 2 * frames
  · rw [if_pos (by omega), if_pos h, Nat.sub_zero]
  · rw [if_neg (by omega), if_neg h]

/-- C16 (changeGain scales per channel).  Mono: every sample k < frames becomes
buffer[k]*leftGain (rightGain is ignored).  Stereo: buffer[2k] becomes
buffer[2k]*leftGain and buffer[2k+1] becomes buffer[2k+1]*rightGain for every
k < frames.  Samples from frames*channels on are unchanged.  Hence
changeGain(g, g) scales every sample by g, gain 1 is a no-op and gain 0 zeroes
the buffer. -/
theorem changeGain_scales [MulZeroOneClass α] (buffer : Nat → α) (frames : Nat)
    (leftGain rightGain g : α) :
    (∀ k, k < frames →
      changeGain buffer 1 frames leftGain rightGain k = buffer k * leftGain) ∧
    (∀ i, frames * 1 ≤ i → changeGain buffer 1 frames leftGain rightGain i = buffer i) ∧
    (∀ k, k < frames →
      changeGain buffer 2 frames leftGain rightGain (2 * k) = buffer (2 * k) * leftGain ∧
      changeGain buffer 2 frames leftGain rightGain (2 * k + 1) =
        buffer (2 * k + 1) * rightGain) ∧
    (∀ i, frames * 2 ≤ i → changeGain buffer 2 frames leftGain rightGain i = buffer i) ∧
    (∀ channels, channels = 1 ∨ channels = 2 → ∀ i, i < frames * channels →
      changeGain buffer channels frames g g i = buffer i * g) ∧
    (∀ channels, changeGain buffer channels frames 1 1 = buffer) ∧
    (∀ channels, channels = 1 ∨ channels = 2 → ∀ i, i < frames * channels →
      changeGain buffer channels frames 0 0 i = 0) := by
  have hgg : ∀ (x : α) (channels : Nat), channels = 1 ∨ channels = 2 → ∀ i,
      i < frames * channels → changeGain buffer channels frames x x i = buffer i * x := by
    intro x channels hc i hi
    rcases hc with rfl | rfl
    · rw [changeGain_mono_apply, if_pos (by omega)]
    · rw [changeGain_stereo_apply, if_pos (by omega), ite_self]
  refine ⟨?_, ?_, ?_, ?_, hgg g, ?_, ?_⟩
  · intro k hk
    rw [changeGain_mono_apply, if_pos hk]
  · intro i hi
    rw [changeGain_mono_apply, if_neg (by omega)]
  · intro k hk
    rw [changeGain_stereo_apply, changeGain_stereo_apply, if_pos (by omega), if_pos (by omega),
      if_pos (by omega), if_neg (by omega)]
    exact ⟨rfl, rfl⟩
  · intro i hi
    rw [changeGain_stereo_apply, if_neg (by omega)]
  · intro channels
    funext i
    by_cases h1 : channels = 1
    · subst h1
      rw [changeGain_mono_apply, mul_one, ite_self]
    · by_cases h2 : channels = 2
      · subst h2
        rw [changeGain_stereo_apply, ite_self, mul_one, ite_self]
      · unfold changeGain
        rw [if_neg h1, if_neg h2]
  · intro channels hc i hi
    rw [hgg 0 channels hc i hi, mul_zero]

theorem mixIn_mono_apply [Add α] [Mul α] (buffer src : Nat → α) (frames : Nat) (l r : α)
    (j : Nat) :
    (mixIn buffer src 1 frames l r).1 j =
      if j < frames then buffer j + src j * l else buffer j := by
  unfold mixIn
  rw [if_pos rfl]
  show mixInMonoLoop src l frames 0 buffer j = _
  rw [mixInMonoLoop_apply]
  by_cases h : j < frames
  · rw [if_pos (by omega), if_pos h]
  · rw [if_neg (by omega), if_neg h]

theorem mixIn_stereo_apply [Add α] [Mul α] (buffer src : Nat → α) (frames : Nat) (l r : α)
    (j : Nat) :
    (mixIn buffer src 2 frames l r).1 j =
      if j < 2 * frames then buffer j + src j * (if j % 2 = 0 then l else r)
      else buffer j := by
  unfold mixIn
  rw [if_neg (by decide), if_pos rfl]
  show mixInStereoLoop src l r frames 0 buffer j = _
  rw [mixInStereoLoop_apply]
  by_cases h : j < 2 * frames
  · rw [if_pos (by omega), if_pos h, Nat.sub_zero]
  · rw [if_neg (by omega), if_neg h]

theorem mixIn_source [Add α] [Mul α] (buffer src : Nat → α) (channels frames : Nat) (l r : α) :
    (mixIn buffer src channels frames l r).2 = src := by
  unfold mixIn
  split_ifs <;> rfl

/-- C15 (mixIn round trip).  For every buffer, every source (a memory apart from
the buffer), every channel count, frame count and gain pair (l, r),
mixIn(buffer, source, channels, frames, l, r) adds source[i]*gain to the first
frames*channels samples (left gain on even floats, right gain on odd floats when
stereo), and a following mixIn with gains (-l, -r) restores every sample of
`buffer` (exact arithmetic); `source` is unchanged by both calls. -/
theorem mixIn_round_trip [Ring α] (buffer source : Nat → α) (channels frames : Nat)
    (l r : α) :
    (mixIn (mixIn buffer source channels frames l r).1
      (mixIn buffer source channels frames l r).2 channels frames (-l) (-r)).1 = buffer ∧
    (mixIn (mixIn buffer source channels frames l r).1
      (mixIn buffer source channels frames l r).2 channels frames (-l) (-r)).2 = source ∧
    (mixIn buffer source channels frames l r).2 = source ∧
    (∀ k, k < frames → (mixIn buffer source 1 frames l r).1 k = buffer k + source k * l) ∧
    (∀ k, k < frames →
      (mixIn buffer source 2 frames l r).1 (2 * k) = buffer (2 * k) + source (2 * k) * l ∧
      (mixIn buffer source 2 frames l r).1 (2 * k + 1) =
        buffer (2 * k + 1) + source (2 * k + 1) * r) := by
  refine ⟨?_, ?_, mixIn_source _ _ _ _ _ _, ?_, ?_⟩
  · rw [mixIn_source]
    funext j
    by_cases h1 : channels = 1
    · subst h1
      rw [mixIn_mono_apply, mixIn_mono_apply]
      by_cases h : j < frames
      · rw [if_pos h, if_pos h]
        simp
      · rw [if_neg h, if_neg h]
    · by_cases h2 : channels = 2
      · subst h2
        rw [mixIn_stereo_apply, mixIn_stereo_apply]
        by_cases h : j < 2 * frames
        · rw [if_pos h, if_pos h]
          by_cases hp : j % 2 = 0
          · rw [if_pos hp, if_pos hp]
            simp
          · rw [if_neg hp, if_neg hp]
            simp
        · rw [if_neg h, if_neg h]
      · unfold mixIn
        rw [if_neg h1, if_neg h2]
        simp only [if_neg h1, if_neg h2]
  · rw [mixIn_source, mixIn_source]
  · intro k hk
    rw [mixIn_mono_apply, if_pos hk]
  · intro k hk
    rw [mixIn_stereo_apply, mixIn_stereo_apply, if_pos (by omega), if_pos (by omega),
      if_pos (by omega), if_neg (by omega)]
    exact ⟨rfl, rfl⟩

end LevelTheorems

section BiquadCoefficients

variable {α : Type} [Add α] [Sub α] [Mul α]

theorem biquadMonoLoop_a0 (a0 a0' a1 a2 b0 b1 b2 : α) (count : Nat) :
    ∀ (p : Nat) (buffer : Nat → α) (t : Taps α),
      biquadMonoLoop ⟨a0, a1, a2, b0, b1, b2⟩ count p buffer t =
        biquadMonoLoop ⟨a0', a1, a2, b0, b1, b2⟩ count p buffer t := by
  induction count with
  | zero => intro p buffer t; rfl
  | succ n ih =>
    intro p buffer t
    rw [biquadMonoLoop, biquadMonoLoop, ih]

theorem biquadStereoLoop_a0 (a0 a0' a1 a2 b0 b1 b2 : α) (count : Nat) :
    ∀ (p : Nat) (buffer : Nat → α) (l r : Taps α),
      biquadStereoLoop ⟨a0, a1, a2, b0, b1, b2⟩ count p buffer l r =
        biquadStereoLoop ⟨a0', a1, a2, b0, b1, b2⟩ count p buffer l r := by
  induction count with
  | zero => intro p buffer l r; rfl
  | succ n ih =>
    intro p buffer l r
    rw [biquadStereoLoop, biquadStereoLoop, ih]

/-- C20 (biquad ignores a0).  For every buffer, state buffer, channel count, frame
count and coefficients a1, a2, b0, b1, b2, the buffer and the state buffer after
the call are the same for any two values of a0. -/
theorem biquad_ignores_a0 (buffer state : Nat → α) (channels frames : Nat)
    (a0 a0' a1 a2 b0 b1 b2 : α) :
    biquad buffer state channels frames ⟨a0, a1, a2, b0, b1, b2⟩ =
      biquad buffer state channels frames ⟨a0', a1, a2, b0, b1, b2⟩ := by
  unfold biquad
  rw [biquadMonoLoop_a0 a0 a0', biquadStereoLoop_a0 a0 a0']

end BiquadCoefficients

section DelayCursor

variable {α : Type} [Add α] [Mul α]

theorem delayLoop_visited (s : DelaySettings α) (count : Nat) :
    ∀ (p offset : Nat) (buffer ring : Nat → α), offset ≤ s.length + 1 →
      (delayLoop s count p offset buffer ring).visited =
        (List.range count).map (fun k => (offset + k) % (s.length + 1)) := by
  induction count with
  | zero => intro p offset buffer ring _; rfl
  | succ n ih =>
    intro p offset buffer ring ho
    rw [delayLoop, List.range_succ_eq_map, List.map_cons, List.map_map]
    by_cases h : offset > s.length
    · have e : offset = s.length + 1 := by omega
      subst e
      simp only [if_pos h]
      rw [ih (p + 1) (0 + 1) _ _ (by omega)]
      congr 1
      · simp
      · apply List.map_congr_left
        intro k _
        show (0 + 1 + k) % (s.length + 1) = (s.length + 1 + (k + 1)) % (s.length + 1)
        rw [Nat.add_mod_left, Nat.zero_add, Nat.add_comm]
    · simp only [if_neg h]
      rw [ih (p + 1) (offset + 1) _ _ (by omega)]
      congr 1
      · rw [Nat.add_zero, Nat.mod_eq_of_lt (by omega)]
      · apply List.map_congr_left
        intro k _
        show (offset + 1 + k) % (s.length + 1) = (offset + (k + 1)) % (s.length + 1)
        rw [Nat.add_assoc, Nat.add_comm 1 k]

/-- C17, the code at a failing input.  Mono delay with length 1 (a ring of
length*channels = 1 float) and two frames: the loop dereferences the ring
positions 0 and 1, and 1 is not below 1, whatever the buffers and the mix
settings. -/
theorem delay_ring_overrun (buffer ring : Nat → α) (dryMix wetMix feedback : α) :
    (delaySamples buffer ring 1 2
      { length := 1, dryMix := dryMix, wetMix := wetMix, feedback := feedback }).visited =
        [0, 1] ∧
    ¬ (1 < 1 * 1) :=
  ⟨rfl, by decide⟩

/-- C18 (delay cursor law).  Within one call, for every length >= 0, the n-th
scalar sample processed (n < frames mono, n < 2*frames stereo) reads and writes
ring position n mod (length + 1): the cursor starts at 0, position `length`
itself is used (no reset when the cursor equals `length`) and the position after
it is 0 (reset once the cursor exceeds `length`). -/
theorem delay_cursor_law (buffer ring : Nat → α) (frames : Nat) (s : DelaySettings α) :
    (delaySamples buffer ring 1 frames s).visited =
      (List.range frames).map (fun n => n % (s.length + 1)) ∧
    (delaySamples buffer ring 2 frames s).visited =
      (List.range (frames * 2)).map (fun n => n % (s.length + 1)) ∧
    (∀ n, n < frames →
      (delaySamples buffer ring 1 frames s).visited.get? n = some (n % (s.length + 1))) ∧
    (∀ n, n < frames * 2 →
      (delaySamples buffer ring 2 frames s).visited.get? n = some (n % (s.length + 1))) ∧
    (s.length < frames →
      (delaySamples buffer ring 1 frames s).visited.get? s.length = some s.length) ∧
    (s.length + 1 < frames →
      (delaySamples buffer ring 1 frames s).visited.get? (s.length + 1) = some 0) := by
  have h1 : (delaySamples buffer ring 1 frames s).visited =
      (List.range frames).map (fun n => n % (s.length + 1)) := by
    unfold delaySamples
    rw [if_pos rfl, delayLoop_visited s frames 0 0 buffer ring (by omega)]
    simp
  have h2 : (delaySamples buffer ring 2 frames s).visited =
      (List.range (frames * 2)).map (fun n => n % (s.length + 1)) := by
    unfold delaySamples
    rw [if_neg (by decide), if_pos rfl,
      delayLoop_visited s (frames * 2) 0 0 buffer ring (by omega)]
    simp
  have g1 : ∀ n, n < frames →
      (delaySamples buffer ring 1 frames s).visited.get? n = some (n % (s.length + 1)) := by
    intro n hn
    rw [h1]
    simp [hn]
  have g2 : ∀ n, n < frames * 2 →
      (delaySamples buffer ring 2 frames s).visited.get? n = some (n % (s.length + 1)) := by
    intro n hn
    rw [h2]
    simp [hn]
  refine ⟨h1, h2, g1, g2, ?_, ?_⟩
  · intro h
    rw [g1 _ h, Nat.mod_eq_of_lt (by omega)]
  · intro h
    rw [g1 _ h, Nat.mod_self]

end DelayCursor

section WavetableWeights

variable {α : Type} [LinearOrderedField α] [FloorRing α]

theorem wavetableMonoLoop_weights (fuel tableSize : Nat) (phaseAdd phaseReset : α)
    (source : Int → α) (count : Nat) :
    ∀ (p : Nat) (buffer : Nat → α) (phase : α) (out : WavetableRun α),
      wavetableMonoLoop fuel tableSize phaseAdd phaseReset source count p buffer phase =
        some out → ∀ w, w ∈ out.weights → 0 ≤ w ∧ w < 1 := by
  induction count with
  | zero =>
    intro p buffer phase out h
    obtain rfl : (⟨buffer, [], [], []⟩ : WavetableRun α) = out := Option.some.inj h
    intro w hw
    simp at hw
  | succ n ih =>
    intro p buffer phase out h
    rw [wavetableMonoLoop] at h
    split at h
    · exact Option.noConfusion h
    · rename_i r _
      dsimp only at h
      split at h
      · exact Option.noConfusion h
      · rename_i rest hl
        obtain rfl := Option.some.inj h
        intro w hw
        rcases List.mem_cons.mp hw with rfl | hw
        · exact ⟨sub_nonneg.mpr (Int.floor_le r), by linarith [Int.lt_floor_add_one r]⟩
        · exact ih _ _ _ rest hl w hw

/-- C19, the code at a failing input.  Stereo `wavetableIn`, tableSize 4,
phase 3/8 (1.5 table frames), one frame, table source[i] = 10*i: the call
returns, the integer phase is floor(1.5 * 0.5) * 2 = 0, the weight passed to
`interpolate` is 1.5 - 0 = 3/2, not below 1, and the left output is 30, which is
not between source[0] = 0 and source[2] = 20. -/
theorem wavetable_stereo_weight_failing :
    ∃ out, wavetableIn 1 (fun _ => (0 : ℚ)) (fun i => 10 * (i : ℚ)) 2 1
        { tableSize := 4, phase := 3 / 8, phaseAdd := 0, phaseReset := 0 } = some out ∧
      out.reads = [0, 2, 1, 3] ∧ out.weights = [3 / 2] ∧ ¬ ((3 / 2 : ℚ) < 1) ∧
      out.buffer 0 = 30 ∧ (fun i : Int => 10 * (i : ℚ)) 0 = 0 ∧
      (fun i : Int => 10 * (i : ℚ)) 2 = 20 := by
  have hw : wrapPhase 4 ((0 : ℚ) * ((4 : Nat) : ℚ)) 1 (3 / 8 * ((4 : Nat) : ℚ)) =
      some (3 / 8 * ((4 : Nat) : ℚ)) := by
    rw [wrapPhase, if_neg (by norm_num)]
  have hf : Int.floor ((3 / 8 : ℚ) * ((4 : Nat) : ℚ) * 0.5) = 0 := by
    rw [Int.floor_eq_iff]
    norm_num
  simp only [wavetableIn, if_neg (show ¬ ((2 : Nat) = 1) by decide),
    if_pos (show (2 : Nat) = 2 from rfl), wavetableStereoLoop, hw, hf]
  refine ⟨_, rfl, ?_⟩
  simp only [Function.update_apply, interpolate]
  norm_num

end WavetableWeights

section Witnesses

/-- C1 at a concrete input: a constant input of five mono frames, split 2 + 3,
with a one-pole lowpass coefficient set and a zero state buffer. -/
theorem biquad_block_split_witness :
    (∀ i, i < 1 * 2 → ofList [1, 1, 1, 1, 1] (0 : ℤ) i = ofList [1, 1] 0 i) ∧
    (∀ i, i < 1 * 3 → ofList [1, 1, 1, 1, 1] (0 : ℤ) (1 * 2 + i) = ofList [1, 1, 1] 0 i) ∧
    (biquad (ofList [1, 1, 1, 1, 1] (0 : ℤ)) (fun _ => 0) 1 (2 + 3)
        { a0 := 1, a1 := -1, a2 := 0, b0 := 1, b1 := 1, b2 := 0 }).2 =
      (biquad (ofList [1, 1, 1] 0)
        (biquad (ofList [1, 1] 0) (fun _ => 0) 1 2
          { a0 := 1, a1 := -1, a2 := 0, b0 := 1, b1 := 1, b2 := 0 }).2 1 3
        { a0 := 1, a1 := -1, a2 := 0, b0 := 1, b1 := 1, b2 := 0 }).2 :=
  ⟨by decide, by decide,
    (biquad_block_split { a0 := 1, a1 := -1, a2 := 0, b0 := 1, b1 := 1, b2 := 0 } 1 2 3
      (fun _ => 0) (ofList [1, 1] 0) (ofList [1, 1, 1] 0) (ofList [1, 1, 1, 1, 1] 0)
      (by decide) (by decide)).2.2⟩

/-- C2 at a concrete input: frame 2 of three frames 1, 2, 3 with state
[4, 5, 6, 7]; the output there is 7. -/
theorem biquad_mono_recurrence_witness :
    2 < 3 ∧
    (biquad (ofList [1, 2, 3] (0 : ℤ)) (ofList [4, 5, 6, 7] 0) 1 3
        { a0 := 1, a1 := -1, a2 := 2, b0 := 3, b1 := 1, b2 := 1 }).1 2 = 7 ∧
    (biquad (ofList [1, 2, 3] (0 : ℤ)) (ofList [4, 5, 6, 7] 0) 1 3
        { a0 := 1, a1 := -1, a2 := 2, b0 := 3, b1 := 1, b2 := 1 }).1 2 =
      3 * ofList [1, 2, 3] (0 : ℤ) 2 +
        1 * delayed (ofList [1, 2, 3] (0 : ℤ)) 4 5 2 1 +
        1 * delayed (ofList [1, 2, 3] (0 : ℤ)) 4 5 2 2 -
        (-1) * delayed (biquad (ofList [1, 2, 3] (0 : ℤ)) (ofList [4, 5, 6, 7] 0) 1 3
          { a0 := 1, a1 := -1, a2 := 2, b0 := 3, b1 := 1, b2 := 1 }).1 6 7 2 1 -
        2 * delayed (biquad (ofList [1, 2, 3] (0 : ℤ)) (ofList [4, 5, 6, 7] 0) 1 3
          { a0 := 1, a1 := -1, a2 := 2, b0 := 3, b1 := 1, b2 := 1 }).1 6 7 2 2 :=
  ⟨by decide, by decide,
    biquad_mono_recurrence { a0 := 1, a1 := -1, a2 := 2, b0 := 3, b1 := 1, b2 := 1 }
      (ofList [1, 2, 3] 0) (ofList [4, 5, 6, 7] 0) 3 2 (by decide)⟩

/-- C4 at a concrete input: three frames 1, 2, 3 and state [4, 5, 6, 7]; the
state buffer is left at [3, 2, 3, 2]. -/
theorem biquad_identity_witness :
    2 ≤ 3 ∧
    (biquad (ofList [1, 2, 3] (0 : ℤ)) (ofList [4, 5, 6, 7] 0) 1 3 identityCoeffs).1 =
      ofList [1, 2, 3] 0 ∧
    (biquad (ofList [1, 2, 3] (0 : ℤ)) (ofList [4, 5, 6, 7] 0) 1 3 identityCoeffs).2 0 = 3 ∧
    (biquad (ofList [1, 2, 3] (0 : ℤ)) (ofList [4, 5, 6, 7] 0) 1 3 identityCoeffs).2 1 = 2 :=
  ⟨by decide,
    (biquad_identity (ofList [1, 2, 3] 0) (ofList [4, 5, 6, 7] 0) 3 (by decide)).1,
    (biquad_identity (ofList [1, 2, 3] 0) (ofList [4, 5, 6, 7] 0) 3 (by decide)).2.1,
    (biquad_identity (ofList [1, 2, 3] 0) (ofList [4, 5, 6, 7] 0) 3 (by decide)).2.2.1⟩

/-- C8 at a concrete input: a table of 4 frames read for 6 output frames. -/
theorem wavetable_periodicity_witness :
    1 ≤ 4 ∧ 2 ≤ 2 ∧
    ∃ out, wavetableIn 2 (fun _ => (0 : ℚ)) (fun i => 10 * (i : ℚ)) 1 6
        { tableSize := 4, phase := 0, phaseAdd := 1 / ((4 : Nat) : ℚ), phaseReset := 0 } =
          some out ∧
      ∀ k, k < 6 → out.buffer k = (fun i : Int => 10 * (i : ℚ)) ((k % 4 : Nat) : Int) :=
  ⟨by decide, by decide,
    wavetable_periodicity (fun _ => (0 : ℚ)) (fun i => 10 * (i : ℚ)) 4 6 2
      (by decide) (by decide)⟩

/-- C9 at a concrete input: a stereo read of 4 frames from a table of size 4 with
phase 1/4, phaseAdd 3/8 and phaseReset 1/8. -/
theorem wavetable_read_bounds_witness :
    (1 ≤ 4 ∧ (0 : ℚ) ≤ 1 / 4 ∧ (0 : ℚ) ≤ 1 / 8 ∧ (1 / 8 : ℚ) < 1 ∧ (0 : ℚ) ≤ 3 / 8 ∧
      ((2 : Nat) = 1 ∨ (2 : Nat) = 2)) ∧
    ((∃ fuel0 out, ∀ fuel, fuel0 ≤ fuel →
      wavetableIn fuel (fun _ => (0 : ℚ)) (fun i => 10 * (i : ℚ)) 2 4
        { tableSize := 4, phase := 1 / 4, phaseAdd := 3 / 8, phaseReset := 1 / 8 } =
          some out) ∧
    ∀ fuel out, wavetableIn fuel (fun _ => (0 : ℚ)) (fun i => 10 * (i : ℚ)) 2 4
        { tableSize := 4, phase := 1 / 4, phaseAdd := 3 / 8, phaseReset := 1 / 8 } =
          some out →
      out.phases.length = 4 ∧
      (∀ ph, ph ∈ out.phases → 0 ≤ ph ∧ ph < ((4 : Nat) : ℚ)) ∧
      ((2 : Nat) = 1 → ∀ i, i ∈ out.reads → 0 ≤ i ∧ i ≤ ((4 : Nat) : Int)) ∧
      ((2 : Nat) = 2 → ∀ i, i ∈ out.reads → 0 ≤ i ∧ i < 2 * (((4 : Nat) : Int) + 1))) :=
  ⟨⟨by decide, by norm_num, by norm_num, by norm_num, by norm_num, Or.inr rfl⟩,
    wavetable_read_bounds (fun _ => (0 : ℚ)) (fun i => 10 * (i : ℚ)) 2 4
      { tableSize := 4, phase := 1 / 4, phaseAdd := 3 / 8, phaseReset := 1 / 8 }
      (by decide) (by norm_num) (by norm_num) (by norm_num) (by norm_num) (Or.inr rfl)⟩

/-- C10 (amended) at a concrete input: a mono read of 6 frames with
phaseReset 1/8. -/
theorem wavetable_terminates_witness :
    (1 ≤ 4 ∧ (1 / 8 : ℚ) < 1) ∧
    ∃ fuel0 out, (∀ fuel, fuel0 ≤ fuel →
        wavetableIn fuel (fun _ => (0 : ℚ)) (fun i => 10 * (i : ℚ)) 1 6
          { tableSize := 4, phase := 1 / 4, phaseAdd := 3 / 8, phaseReset := 1 / 8 } =
            some out) ∧
      ((1 : Nat) = 1 ∨ (1 : Nat) = 2 → out.phases.length = 6) :=
  ⟨⟨by decide, by norm_num⟩,
    wavetable_terminates (fun _ => (0 : ℚ)) (fun i => 10 * (i : ℚ)) 1 6
      { tableSize := 4, phase := 1 / 4, phaseAdd := 3 / 8, phaseReset := 1 / 8 }
      (by decide) (by norm_num)⟩

/-- C11 (amended) at a concrete input: rate 22050, mono, 5 output frames requested;
the floats 0..7 are written and float 8 is left as it was. -/
theorem standardize_written_witness :
    (((22050 : Int) = 44100 ∧ (1 : Nat) = 2) ∨ ((22050 : Int) = 22050 ∧ (1 : Nat) = 1) ∨
      ((22050 : Int) = 22050 ∧ (1 : Nat) = 2) ∨ ((22050 : Int) = 44100 ∧ (1 : Nat) = 1)) ∧
    (standardize (fun _ => (9 : ℤ)) (ofList [1, 2, 3] 0) 1 5 22050).written =
      [0, 1, 2, 3, 4, 5, 6, 7] ∧
    (standardize (fun _ => (9 : ℤ)) (ofList [1, 2, 3] 0) 1 5 22050).written =
      List.range (if (22050 : Int) = 22050 then 4 * (5 / 2) else 2 * 5) ∧
    (standardize (fun _ => (9 : ℤ)) (ofList [1, 2, 3] 0) 1 5 22050).buffer 8 = 9 :=
  ⟨Or.inr (Or.inl ⟨rfl, rfl⟩), by decide,
    (standardize_written (fun _ => (9 : ℤ)) (ofList [1, 2, 3] 0) 1 5 22050
      (Or.inr (Or.inl ⟨rfl, rfl⟩))).1,
    (standardize_written (fun _ => (9 : ℤ)) (ofList [1, 2, 3] 0) 1 5 22050
      (Or.inr (Or.inl ⟨rfl, rfl⟩))).2.1 8 (by decide)⟩

/-- C12 at a concrete input: source sample 1 (value 2) of a 4-frame request fills
the floats 4..7. -/
theorem standardize_upsample_mono_witness :
    1 < 4 / 2 ∧
    (standardize (fun _ => (9 : ℤ)) (ofList [1, 2, 3] 0) 1 4 22050).buffer (4 * 1) =
      ofList [1, 2, 3] 0 1 ∧
    (standardize (fun _ => (9 : ℤ)) (ofList [1, 2, 3] 0) 1 4 22050).buffer (4 * 1 + 3) = 2 :=
  ⟨by decide,
    (standardize_upsample_mono (fun _ => (9 : ℤ)) (ofList [1, 2, 3] 0) 4 1 (by decide)).1,
    by decide⟩

/-- C14 at a concrete input: rate 48000, stereo. -/
theorem standardize_unsupported_witness :
    ¬ (((48000 : Int) = 44100 ∧ (2 : Nat) = 2) ∨ ((48000 : Int) = 22050 ∧ (2 : Nat) = 1) ∨
      ((48000 : Int) = 22050 ∧ (2 : Nat) = 2) ∨ ((48000 : Int) = 44100 ∧ (2 : Nat) = 1)) ∧
    (standardize (fun _ => (9 : ℤ)) (ofList [1, 2, 3] 0) 2 3 48000).buffer = (fun _ => 9) ∧
    (standardize (fun _ => (9 : ℤ)) (ofList [1, 2, 3] 0) 2 3 48000).sourceBuffer =
      ofList [1, 2, 3] 0 :=
  ⟨by decide,
    (standardize_unsupported (fun _ => (9 : ℤ)) (ofList [1, 2, 3] 0) 2 3 48000 (by decide)).1,
    (standardize_unsupported (fun _ => (9 : ℤ)) (ofList [1, 2, 3] 0) 2 3 48000 (by decide)).2.1⟩

end Witnesses

end AWave
